import Mathlib

/-!
Shallow embedding of `src/reconstruction.cpp`: an MBO → MBP-10 order-book
reconstruction engine.  `std::map` is modelled as an association list sorted
strictly by key, `std::unordered_map` as an association list with unique keys,
and `std::list` as a plain list.  Fallible C++ code (functions that `throw`)
returns `Except String`.  32-bit unsigned accumulation is modelled with
`% U32`.
-/

/-- 2^32, the modulus of C++ `uint32_t` arithmetic. -/
def U32 : Nat := 4294967296

/-- The sentinel price `-(2^63 - 1)` used for undefined prices. -/
def UNDEFINED_PRICE : Int := -9223372036854775807

/-- Action codes of `Act::Type`. -/
inductive Act where
  | Add | Cancel | Modify | Clear | Trade | Fill | None
deriving DecidableEq, Repr

/-- Side codes of `Sd::Type`. -/
inductive Sd where
  | Ask | Bid | None
deriving DecidableEq, Repr

/-- One MBO message (`struct MboSingle`). -/
structure MboSingle where
  tsRecv : String
  tsEvent : String
  rtype : Nat
  pubId : Nat
  instrId : Nat
  action : Act
  side : Sd
  price : Int
  size : Nat
  chanId : Nat
  orderId : Nat
  flags : Nat
  tsInDelta : Int
  sequence : Nat
  symbol : String
deriving DecidableEq, Repr

/-- Aggregated view of one price level (`struct PriceLvl`). -/
structure PriceLvl where
  price : Int := UNDEFINED_PRICE
  size : Nat := 0
  count : Nat := 0
deriving DecidableEq, Repr

/-- `PriceLvl::IsEmpty`. -/
def PriceLvl.IsEmpty (l : PriceLvl) : Bool := l.price == UNDEFINED_PRICE

/-- Lookup in an unordered map modelled as an association list
(`std::unordered_map::find`). -/
def aFind {α : Type} (l : List (Nat × α)) (k : Nat) : Option α :=
  (l.find? (fun p => p.1 == k)).map (fun p => p.2)

/-- Key removal in an unordered map (`std::unordered_map::erase`). -/
def aErase {α : Type} (l : List (Nat × α)) (k : Nat) : List (Nat × α) :=
  l.filter (fun p => p.1 != k)

/-- In-place value update of an existing key (e.g. `psIt->second.price = ...`). -/
def aUpd {α : Type} (l : List (Nat × α)) (k : Nat) (v : α) : List (Nat × α) :=
  l.map (fun p => if p.1 = k then (k, v) else p)

/-- `operator[]` followed by assignment: overwrite or append. -/
def aStore {α : Type} (l : List (Nat × α)) (k : Nat) (v : α) : List (Nat × α) :=
  if (aFind l k).isSome then aUpd l k v else l ++ [(k, v)]

/-- Lookup in a sorted map modelled as a key-sorted association list
(`std::map::find`). -/
def smFind {α : Type} (l : List (Int × α)) (k : Int) : Option α :=
  (l.find? (fun p => p.1 == k)).map (fun p => p.2)

/-- Insert-or-replace in a sorted map, keeping keys in ascending order
(`std::map::operator[]` plus assignment). -/
def smSet {α : Type} : List (Int × α) → Int → α → List (Int × α)
  | [], k, v => [(k, v)]
  | (p, w) :: rest, k, v =>
    if k < p then (k, v) :: (p, w) :: rest
    else if k = p then (k, v) :: rest
    else (p, w) :: smSet rest k v

/-- Key removal in a sorted map (`std::map::erase`). -/
def smErase {α : Type} (l : List (Int × α)) (k : Int) : List (Int × α) :=
  l.filter (fun p => p.1 != k)

/-- A FIFO of resting orders at one price (`using LvlOrdsInQ = std::list<MboSingle>`). -/
abbrev LvlOrdsInQ := List MboSingle

/-- A side's sorted price map (`using LvlOrds = std::map<int64_t, LvlOrdsInQ>`). -/
abbrev LvlOrds := List (Int × LvlOrdsInQ)

/-- The `(price, side)` record kept in the id index (`struct PxAndSd`). -/
structure PxAndSd where
  price : Int
  side : Sd
deriving DecidableEq, Repr

/-- The order ids of a queue, in queue order. -/
def qIds (q : LvlOrdsInQ) : List Nat := q.map (fun o => o.orderId)

/-- `GetLvlOrd`: first entry of a level with the given order id. -/
def findOrd (q : LvlOrdsInQ) (oid : Nat) : Option MboSingle :=
  q.find? (fun o => o.orderId == oid)

/-- Erase the first entry with the given order id (`lvl.erase(ordIt)`). -/
def eraseFirstOrd : LvlOrdsInQ → Nat → LvlOrdsInQ
  | [], _ => []
  | o :: rest, oid => if o.orderId = oid then rest else o :: eraseFirstOrd rest oid

/-- Set the size of the first entry with the given order id (`ordIt->size = ...`). -/
def setSizeFirstOrd : LvlOrdsInQ → Nat → Nat → LvlOrdsInQ
  | [], _, _ => []
  | o :: rest, oid, sz =>
    if o.orderId = oid then { o with size := sz } :: rest
    else o :: setSizeFirstOrd rest oid sz

/-- The consuming loop of `Book::ProcSynthTrade`: walk the queue from the head
consuming `remSz` units; returns the remaining queue and the ids of fully
consumed orders, in consumption order. -/
def consumeOrds : LvlOrdsInQ → Nat → LvlOrdsInQ × List Nat
  | [], _ => ([], [])
  | o :: rest, remSz =>
    if remSz = 0 then (o :: rest, [])
    else if o.size ≤ remSz then
      let r := consumeOrds rest (remSz - o.size)
      (r.1, o.orderId :: r.2)
    else
      ({ o with size := o.size - remSz } :: rest, [])

/-- The order book of one `(instrument, publisher)` pair (`class Book`). -/
structure Book where
  ordsById : List (Nat × PxAndSd)
  offers : LvlOrds
  bids : LvlOrds
deriving DecidableEq, Repr

/-- A freshly constructed (or fully cleared) book. -/
def Book.emptyBook : Book := ⟨[], [], []⟩

/-- `Book::GetSdOrds`, made total by returning `[]` on `Sd::None` (which the
C++ rejects by throwing; the operations below check the side explicitly). -/
def Book.sideGet (b : Book) : Sd → LvlOrds
  | Sd.Ask => b.offers
  | Sd.Bid => b.bids
  | Sd.None => []

/-- Replace one side's price map. -/
def Book.setSide (b : Book) : Sd → LvlOrds → Book
  | Sd.Ask, lv => { b with offers := lv }
  | Sd.Bid, lv => { b with bids := lv }
  | Sd.None, _ => b

/-- `Book::Add`: append the order to the tail of its level (creating the level
if needed) and record it in the id index; a duplicate id or an invalid side is
a thrown error. -/
def Book.Add (b : Book) (m : MboSingle) : Except String Book :=
  if m.side = Sd.None then .error "Invalid side."
  else
    let lvls := b.sideGet m.side
    let q := (smFind lvls m.price).getD []
    let b2 := b.setSide m.side (smSet lvls m.price (q ++ [m]))
    match aFind b.ordsById m.orderId with
    | some _ => .error "Dupe ID for Add"
    | none => .ok { b2 with ordsById := b.ordsById ++ [(m.orderId, ⟨m.price, m.side⟩)] }

/-- `Book::Cancel`: decrement (capping at zero) the resting order's size; on a
transition to zero remove the entry, its index record, and the level if it
empties.  Unknown ids and an index entry missing from its queue are warned and
ignored; a missing level is a thrown error (`GetLvl`). -/
def Book.Cancel (b : Book) (m : MboSingle) : Except String Book :=
  match aFind b.ordsById m.orderId with
  | none => .ok b
  | some ps =>
    if ps.side = Sd.None then .error "Invalid side."
    else
      match smFind (b.sideGet ps.side) ps.price with
      | none => .error "Access unk lvl"
      | some q =>
        match findOrd q m.orderId with
        | none => .ok b
        | some o =>
          let newSz := if o.size < m.size then 0 else o.size - m.size
          if newSz = 0 then
            let q2 := eraseFirstOrd q m.orderId
            let lvls2 :=
              if q2 = [] then smErase (b.sideGet ps.side) ps.price
              else smSet (b.sideGet ps.side) ps.price q2
            .ok { b.setSide ps.side lvls2 with ordsById := aErase b.ordsById m.orderId }
          else
            .ok (b.setSide ps.side (smSet (b.sideGet ps.side) ps.price
              (setSizeFirstOrd q m.orderId newSz)))

/-- `Book::Modify`: unknown id behaves as `Add`; a side change is a thrown
error; a price change moves the entry to the tail of the new level and updates
the index; at the same price a size increase re-queues the entry at the tail
while a size decrease (or equal size) updates it in place. -/
def Book.Modify (b : Book) (m : MboSingle) : Except String Book :=
  match aFind b.ordsById m.orderId with
  | none => b.Add m
  | some ps =>
    if ps.side = m.side then
      if m.side = Sd.None then .error "Invalid side."
      else
        match smFind (b.sideGet m.side) ps.price with
        | none => .error "Access unk lvl"
        | some q =>
          match findOrd q m.orderId with
          | none => .ok b
          | some o =>
            if ps.price = m.price then
              if o.size < m.size then
                .ok (b.setSide m.side (smSet (b.sideGet m.side) m.price
                  (eraseFirstOrd q m.orderId ++ [m])))
              else
                .ok (b.setSide m.side (smSet (b.sideGet m.side) m.price
                  (setSizeFirstOrd q m.orderId m.size)))
            else
              let q2 := eraseFirstOrd q m.orderId
              let lv1 :=
                if q2 = [] then smErase (b.sideGet m.side) ps.price
                else smSet (b.sideGet m.side) ps.price q2
              let newQ := (smFind lv1 m.price).getD []
              .ok { b.setSide m.side (smSet lv1 m.price (newQ ++ [m])) with
                    ordsById := aUpd b.ordsById m.orderId ⟨m.price, m.side⟩ }
    else .error "changed side"

/-- `Book::ProcSynthTrade`: consume `sz` units from the head of the
`(sideAff, px)` queue, erasing fully consumed orders from the queue and the id
index, and removing the level if it empties; a missing level is warned and
ignored. -/
def Book.ProcSynthTrade (b : Book) (px : Int) (sz : Nat) (sideAff : Sd) :
    Except String Book :=
  if sideAff = Sd.None then .error "Invalid side."
  else
    match smFind (b.sideGet sideAff) px with
    | none => .ok b
    | some q =>
      let r := consumeOrds q sz
      let idx2 := r.2.foldl aErase b.ordsById
      let lvls2 :=
        if r.1 = [] then smErase (b.sideGet sideAff) px
        else smSet (b.sideGet sideAff) px r.1
      .ok { b.setSide sideAff lvls2 with ordsById := idx2 }

/-- `Book::Apply`: dispatch on the action; `Trade`, `Fill` and `None` do not
touch the book. -/
def Book.Apply (b : Book) (m : MboSingle) : Except String Book :=
  match m.action with
  | Act.Clear => .ok Book.emptyBook
  | Act.Add => b.Add m
  | Act.Cancel => b.Cancel m
  | Act.Modify => b.Modify m
  | Act.Trade => .ok b
  | Act.Fill => .ok b
  | Act.None => .ok b

/-- `Book::CalcPriceLvl`: total size (mod 2^32) and order count of a level. -/
def CalcPriceLvl (px : Int) (q : LvlOrdsInQ) : PriceLvl :=
  q.foldl (fun r o => ⟨r.price, (r.size + o.size) % U32, (r.count + 1) % U32⟩)
    ⟨px, 0, 0⟩

/-- `Book::GetBidLvls`: up to `n` best (highest-price) bid levels. -/
def Book.GetBidLvls (b : Book) (n : Nat) : List PriceLvl :=
  (b.bids.reverse.take n).map (fun pr => CalcPriceLvl pr.1 pr.2)

/-- `Book::GetAskLvls`: up to `n` best (lowest-price) ask levels. -/
def Book.GetAskLvls (b : Book) (n : Nat) : List PriceLvl :=
  (b.offers.take n).map (fun pr => CalcPriceLvl pr.1 pr.2)

/-- The loop of `Book::GetBidLevelDepth`, walking levels best-first. -/
def bidDepthAux : List (Int × LvlOrdsInQ) → Int → Nat → Nat
  | [], _, _ => 0
  | (p, _) :: rest, price, depth =>
    if p = price then depth
    else if p < price then 0
    else bidDepthAux rest price (depth + 1)

/-- `Book::GetBidLevelDepth`. -/
def Book.GetBidLevelDepth (b : Book) (price : Int) : Nat :=
  bidDepthAux b.bids.reverse price 0

/-- The `lower_bound` walk of `Book::GetAskLevelDepth` on the ascending ask map. -/
def askDepthAux : List (Int × LvlOrdsInQ) → Int → Nat → Nat
  | [], _, _ => 0
  | (p, _) :: rest, price, idx =>
    if p < price then askDepthAux rest price (idx + 1)
    else if p = price then idx
    else 0

/-- `Book::GetAskLevelDepth`. -/
def Book.GetAskLevelDepth (b : Book) (price : Int) : Nat :=
  askDepthAux b.offers price 0

/-- The per-instrument publisher map of `Market` (`unordered_map<uint16_t, Book>`). -/
abbrev PubBooks := List (Nat × Book)

/-- `class Market`: `instrument_id → publisher_id → Book`. -/
structure Market where
  books : List (Nat × PubBooks)
deriving DecidableEq, Repr

/-- The empty market. -/
def Market.emptyMarket : Market := ⟨[]⟩

/-- `Market::Apply`: route to `books_[instrId][pubId]`, creating both maps'
entries lazily (`operator[]`). -/
def Market.Apply (mk : Market) (m : MboSingle) : Except String Market := do
  let pbs := (aFind mk.books m.instrId).getD []
  let bk := (aFind pbs m.pubId).getD Book.emptyBook
  let bk2 ← bk.Apply m
  .ok ⟨aStore mk.books m.instrId (aStore pbs m.pubId bk2)⟩

/-- `Market::ProcSynthTrade`: route to the existing book; a missing instrument
or publisher is warned and ignored. -/
def Market.ProcSynthTrade (mk : Market) (instrId pubId : Nat) (px : Int)
    (sz : Nat) (sideAff : Sd) : Except String Market :=
  match aFind mk.books instrId with
  | none => .ok mk
  | some pbs =>
    match aFind pbs pubId with
    | none => .ok mk
    | some bk => do
      let bk2 ← bk.ProcSynthTrade px sz sideAff
      .ok ⟨aStore mk.books instrId (aStore pbs pubId bk2)⟩

/-- `Market::GetLevelDepth`: delegate to the book's side depth query, 0 when
the book is absent or the side is `None`. -/
def Market.GetLevelDepth (mk : Market) (instrId pubId : Nat) (price : Int)
    (side : Sd) : Nat :=
  match aFind mk.books instrId with
  | none => 0
  | some pbs =>
    match aFind pbs pubId with
    | none => 0
    | some bk =>
      match side with
      | Sd.Bid => bk.GetBidLevelDepth price
      | Sd.Ask => bk.GetAskLevelDepth price
      | Sd.None => 0

/-- One `aggBids[lvl.price] += lvl` step of the aggregation loops, including
the `IsEmpty` skip. -/
def aggStep (acc : List (Int × PriceLvl)) (lvl : PriceLvl) : List (Int × PriceLvl) :=
  if lvl.IsEmpty then acc
  else
    let cur := (smFind acc lvl.price).getD {}
    smSet acc lvl.price
      ⟨lvl.price, (cur.size + lvl.size) % U32, (cur.count + lvl.count) % U32⟩

/-- `Market::GetAggBidLvls`: fold every publisher's top-`n` bid levels into a
price-keyed sorted map, then return the best `n` (highest first). -/
def Market.GetAggBidLvls (mk : Market) (instrId n : Nat) : List PriceLvl :=
  let agg : List (Int × PriceLvl) :=
    match aFind mk.books instrId with
    | none => []
    | some pbs =>
      pbs.foldl (fun acc (pb : Nat × Book) => (pb.2.GetBidLvls n).foldl aggStep acc) []
  ((agg.reverse.take n).map (fun pr => pr.2))

/-- `Market::GetAggAskLvls`: fold every publisher's top-`n` ask levels into a
price-keyed sorted map, then return the best `n` (lowest first). -/
def Market.GetAggAskLvls (mk : Market) (instrId n : Nat) : List PriceLvl :=
  let agg : List (Int × PriceLvl) :=
    match aFind mk.books instrId with
    | none => []
    | some pbs =>
      pbs.foldl (fun acc (pb : Nat × Book) => (pb.2.GetAskLvls n).foldl aggStep acc) []
  ((agg.take n).map (fun pr => pr.2))

/-- The sequencer's pending Trade/Fill map (`unordered_map<uint64_t, MboSingle>`). -/
abbrev PendingTFs := List (Nat × MboSingle)

/-- What one iteration of the driver loop produces: the updated market and
pending map, and the row's depth and aggregated top-10 sides. -/
structure StepOut where
  market : Market
  pending : PendingTFs
  depth : Nat
  bids : List PriceLvl
  asks : List PriceLvl
deriving DecidableEq, Repr

/-- One iteration of the driver loop in `main` (event sequencing, book
mutation, depth computation and top-10 aggregation for the output row). -/
def driverStep (mk : Market) (pend : PendingTFs) (m : MboSingle) :
    Except String StepOut :=
  if m.action = Act.Trade ∧ m.side = Sd.None then
    .ok ⟨mk, pend, 0, mk.GetAggBidLvls m.instrId 10, mk.GetAggAskLvls m.instrId 10⟩
  else if m.action = Act.Trade ∨ m.action = Act.Fill then
    .ok ⟨mk, aStore pend m.orderId m, 0,
         mk.GetAggBidLvls m.instrId 10, mk.GetAggAskLvls m.instrId 10⟩
  else if m.action = Act.Cancel then
    match aFind pend m.orderId with
    | some priorTF =>
      let pend2 := aErase pend m.orderId
      match priorTF.side with
      | Sd.None =>
        .ok ⟨mk, pend2, 0, mk.GetAggBidLvls m.instrId 10, mk.GetAggAskLvls m.instrId 10⟩
      | Sd.Ask =>
        let mk2 :=
          match mk.ProcSynthTrade m.instrId m.pubId priorTF.price priorTF.size Sd.Bid with
          | .ok x => x
          | .error _ => mk
        .ok ⟨mk2, pend2, mk2.GetLevelDepth m.instrId m.pubId priorTF.price Sd.Bid,
             mk2.GetAggBidLvls m.instrId 10, mk2.GetAggAskLvls m.instrId 10⟩
      | Sd.Bid =>
        let mk2 :=
          match mk.ProcSynthTrade m.instrId m.pubId priorTF.price priorTF.size Sd.Ask with
          | .ok x => x
          | .error _ => mk
        .ok ⟨mk2, pend2, mk2.GetLevelDepth m.instrId m.pubId priorTF.price Sd.Ask,
             mk2.GetAggBidLvls m.instrId 10, mk2.GetAggAskLvls m.instrId 10⟩
    | none => do
      let mk2 ← mk.Apply m
      .ok ⟨mk2, pend, mk2.GetLevelDepth m.instrId m.pubId m.price m.side,
           mk2.GetAggBidLvls m.instrId 10, mk2.GetAggAskLvls m.instrId 10⟩
  else do
    let mk2 ← mk.Apply m
    let d :=
      if m.action = Act.Add ∨ m.action = Act.Modify then
        mk2.GetLevelDepth m.instrId m.pubId m.price m.side
      else 0
    .ok ⟨mk2, pend, d, mk2.GetAggBidLvls m.instrId 10, mk2.GetAggAskLvls m.instrId 10⟩

/-- Every id the index maps is present in the queue its record names. -/
def Book.idxMatches (b : Book) : Prop :=
  ∀ oid ps, aFind b.ordsById oid = some ps →
    ∃ q, smFind (b.sideGet ps.side) ps.price = some q ∧ oid ∈ qIds q

/-- Every id resting in any queue is indexed with exactly that queue's
`(price, side)`. -/
def Book.queuesMatch (b : Book) : Prop :=
  ∀ sd px q, smFind (b.sideGet sd) px = some q →
    ∀ oid, oid ∈ qIds q → aFind b.ordsById oid = some ⟨px, sd⟩

/-- No queue holds the same order id twice. -/
def Book.queuesNodup (b : Book) : Prop :=
  ∀ sd px q, smFind (b.sideGet sd) px = some q → (qIds q).Nodup

/-- No empty level is present in either price map. -/
def Book.noEmptyLvls (b : Book) : Prop :=
  ∀ sd px q, smFind (b.sideGet sd) px = some q → q ≠ []

/-- The inductive representation-plus-index invariant of a book: both price
maps are strictly key-sorted, index keys are unique, and the id index and the
level queues agree. -/
def Book.wf (b : Book) : Prop :=
  List.Sorted (· < ·) (b.bids.map Prod.fst) ∧
  List.Sorted (· < ·) (b.offers.map Prod.fst) ∧
  (b.ordsById.map Prod.fst).Nodup ∧
  b.idxMatches ∧ b.queuesMatch ∧ b.queuesNodup ∧ b.noEmptyLvls

/-- Book states reachable by the operations the driver can invoke, with no
fatal fault. -/
inductive Book.Reachable : Book → Prop where
  | empty : Book.Reachable Book.emptyBook
  | applyStep {b b' : Book} {m : MboSingle} :
      Book.Reachable b → b.Apply m = .ok b' → Book.Reachable b'
  | synthStep {b b' : Book} {px : Int} {sz : Nat} {sd : Sd} :
      Book.Reachable b → b.ProcSynthTrade px sz sd = .ok b' → Book.Reachable b'

theorem aFind_cons {α : Type} (p : Nat × α) (l : List (Nat × α)) (k : Nat) :
    aFind (p :: l) k = if p.1 = k then some p.2 else aFind l k := by
  by_cases h : p.1 = k
  · unfold aFind; rw [List.find?_cons_of_pos _ (by simp [h])]; simp [h]
  · unfold aFind; rw [List.find?_cons_of_neg _ (by simp [h])]; simp [h]

theorem aFind_eq_none_iff {α : Type} {l : List (Nat × α)} {k : Nat} :
    aFind l k = none ↔ ∀ p ∈ l, p.1 ≠ k := by
  induction l with
  | nil => simp [aFind]
  | cons p rest ih =>
    rw [aFind_cons]
    by_cases h : p.1 = k <;> simp [h, ih]

theorem aFind_append {α : Type} (l₁ l₂ : List (Nat × α)) (k : Nat) :
    aFind (l₁ ++ l₂) k = (aFind l₁ k).or (aFind l₂ k) := by
  induction l₁ with
  | nil => simp [aFind]
  | cons p rest ih =>
    rw [List.cons_append, aFind_cons, aFind_cons]
    by_cases h : p.1 = k <;> simp [h, ih]

theorem aFind_concat_self {α : Type} {l : List (Nat × α)} {k : Nat} (v : α)
    (h : aFind l k = none) : aFind (l ++ [(k, v)]) k = some v := by
  rw [aFind_append, h]
  simp [aFind]

theorem aFind_concat_of_some {α : Type} {l : List (Nat × α)} {k k' : Nat} {v w : α}
    (h : aFind l k' = some w) : aFind (l ++ [(k, v)]) k' = some w := by
  rw [aFind_append, h]; rfl

theorem aFind_aErase {α : Type} (l : List (Nat × α)) (k k' : Nat) :
    aFind (aErase l k) k' = if k' = k then none else aFind l k' := by
  induction l with
  | nil => simp [aFind, aErase]
  | cons p rest ih =>
    unfold aErase at ih ⊢
    by_cases hk : k' = k
    · subst hk
      by_cases hpk : p.1 = k'
      · simpa [List.filter_cons, hpk] using ih
      · simpa [List.filter_cons, hpk, aFind_cons] using ih
    · by_cases hpk : p.1 = k
      · have h2 : ¬ (k : Nat) = k' := fun h => hk h.symm
        simp [List.filter_cons, hpk, hk, h2, ih, aFind_cons]
      · simp [List.filter_cons, hpk, hk, ih, aFind_cons]

theorem aErase_of_none {α : Type} {l : List (Nat × α)} {k : Nat}
    (h : aFind l k = none) : aErase l k = l := by
  rw [aFind_eq_none_iff] at h
  unfold aErase
  rw [List.filter_eq_self]
  intro p hp
  simpa using h p hp

theorem aErase_concat_self {α : Type} {l : List (Nat × α)} {k : Nat} {v : α}
    (h : aFind l k = none) : aErase (l ++ [(k, v)]) k = l := by
  unfold aErase
  rw [List.filter_append]
  have h1 : aErase l k = l := aErase_of_none h
  unfold aErase at h1
  rw [h1]
  simp

theorem aFind_aUpd {α : Type} (l : List (Nat × α)) (k : Nat) (v : α) (k' : Nat) :
    aFind (aUpd l k v) k' =
      if k' = k then (aFind l k).map (fun _ => v) else aFind l k' := by
  induction l with
  | nil => simp [aFind, aUpd]
  | cons p rest ih =>
    unfold aUpd at ih ⊢
    by_cases hk : k' = k
    · subst hk
      by_cases hpk : p.1 = k'
      · simp [List.map_cons, hpk, aFind_cons, ih]
      · simp [List.map_cons, hpk, aFind_cons, ih]
    · by_cases hpk : p.1 = k
      · have h2 : ¬ (k : Nat) = k' := fun h => hk h.symm
        simp [List.map_cons, hpk, hk, aFind_cons, ih, h2]
      · by_cases hpk' : p.1 = k'
        · simp [List.map_cons, hpk, hpk', hk, aFind_cons]
        · simp [List.map_cons, hpk, hpk', aFind_cons, ih]

theorem aUpd_keys {α : Type} (l : List (Nat × α)) (k : Nat) (v : α) :
    (aUpd l k v).map Prod.fst = l.map Prod.fst := by
  unfold aUpd
  rw [List.map_map]
  apply List.map_congr_left
  intro p _
  by_cases h : p.1 = k <;> simp [h]

theorem aFind_aStore {α : Type} (l : List (Nat × α)) (k : Nat) (v : α) (k' : Nat) :
    aFind (aStore l k v) k' = if k' = k then some v else aFind l k' := by
  unfold aStore
  by_cases h : (aFind l k).isSome
  · rw [if_pos h, aFind_aUpd]
    rcases Option.isSome_iff_exists.mp h with ⟨w, hw⟩
    by_cases hk : k' = k <;> simp [hk, hw]
  · rw [if_neg h]
    have hnone : aFind l k = none := Option.not_isSome_iff_eq_none.mp h
    by_cases hk : k' = k
    · rw [if_pos hk, hk, aFind_concat_self _ hnone]
    · rw [if_neg hk, aFind_append]
      have : aFind [(k, v)] k' = none := by
        rw [aFind_cons]; simp [Ne.symm hk, aFind]
      rw [this]
      cases aFind l k' <;> rfl

theorem smFind_cons {α : Type} (p : Int × α) (l : List (Int × α)) (k : Int) :
    smFind (p :: l) k = if p.1 = k then some p.2 else smFind l k := by
  by_cases h : p.1 = k
  · unfold smFind; rw [List.find?_cons_of_pos _ (by simp [h])]; simp [h]
  · unfold smFind; rw [List.find?_cons_of_neg _ (by simp [h])]; simp [h]

theorem smFind_eq_none_iff {α : Type} {l : List (Int × α)} {k : Int} :
    smFind l k = none ↔ ∀ p ∈ l, p.1 ≠ k := by
  induction l with
  | nil => simp [smFind]
  | cons p rest ih =>
    rw [smFind_cons]
    by_cases h : p.1 = k <;> simp [h, ih]

theorem smFind_mem_keys {α : Type} {l : List (Int × α)} {k : Int} {v : α}
    (h : smFind l k = some v) : k ∈ l.map Prod.fst := by
  unfold smFind at h
  rcases Option.map_eq_some'.mp h with ⟨p, hp, hv⟩
  have h1 := List.find?_some hp
  have h2 := List.mem_of_find?_eq_some hp
  simp only [beq_iff_eq] at h1
  exact h1 ▸ List.mem_map_of_mem Prod.fst h2

theorem smFind_of_not_mem_keys {α : Type} {l : List (Int × α)} {k : Int}
    (h : k ∉ l.map Prod.fst) : smFind l k = none := by
  rw [smFind_eq_none_iff]
  intro p hp hk
  exact h (hk ▸ List.mem_map_of_mem Prod.fst hp)

theorem smFind_smSet_self {α : Type} (l : List (Int × α)) (k : Int) (v : α) :
    smFind (smSet l k v) k = some v := by
  induction l with
  | nil => simp [smSet, smFind_cons]
  | cons p rest ih =>
    obtain ⟨pk, pw⟩ := p
    by_cases h1 : k < pk
    · simp [smSet, h1, smFind_cons]
    · by_cases h2 : k = pk
      · subst h2; simp [smSet, h1, smFind_cons]
      · have h3 : ¬ pk = k := fun h => h2 h.symm
        simp [smSet, h1, h2, h3, smFind_cons, ih]

theorem smFind_smSet_ne {α : Type} (l : List (Int × α)) (k : Int) (v : α) {k' : Int}
    (h : k' ≠ k) : smFind (smSet l k v) k' = smFind l k' := by
  induction l with
  | nil => simp [smSet, smFind_cons, Ne.symm h, smFind]
  | cons p rest ih =>
    obtain ⟨pk, pw⟩ := p
    by_cases h1 : k < pk
    · simp [smSet, h1, smFind_cons, Ne.symm h]
    · by_cases h2 : k = pk
      · subst h2
        simp [smSet, h1, smFind_cons, Ne.symm h]
      · simp [smSet, h1, h2, smFind_cons, ih]

theorem mem_keys_smSet {α : Type} {l : List (Int × α)} {k : Int} {v : α} {x : Int} :
    x ∈ (smSet l k v).map Prod.fst ↔ x = k ∨ x ∈ l.map Prod.fst := by
  induction l with
  | nil => simp [smSet]
  | cons p rest ih =>
    obtain ⟨pk, pw⟩ := p
    by_cases h1 : k < pk
    · simp [smSet, h1]
    · by_cases h2 : k = pk
      · subst h2
        simp [smSet, h1]
      · simp [smSet, h1, h2, ih]
        tauto

theorem smSet_sorted {α : Type} {l : List (Int × α)} (k : Int) (v : α)
    (h : List.Sorted (· < ·) (l.map Prod.fst)) :
    List.Sorted (· < ·) ((smSet l k v).map Prod.fst) := by
  induction l with
  | nil => simp [smSet]
  | cons p rest ih =>
    obtain ⟨pk, pw⟩ := p
    rw [List.map_cons, List.sorted_cons] at h
    obtain ⟨hall, hrest⟩ := h
    by_cases h1 : k < pk
    · simp only [smSet, if_pos h1, List.map_cons, List.sorted_cons]
      refine ⟨?_, ?_⟩
      · intro b hb
        simp only [List.mem_cons] at hb
        rcases hb with rfl | hb
        · exact h1
        · exact lt_trans h1 (hall b hb)
      · exact ⟨hall, hrest⟩
    · by_cases h2 : k = pk
      · subst h2
        have e0 : smSet ((k, pw) :: rest) k v = (k, v) :: rest := by
          simp [smSet, h1]
        rw [e0, List.map_cons, List.sorted_cons]
        exact ⟨hall, hrest⟩
      · have h3 : pk < k := by omega
        simp only [smSet, if_neg h1, if_neg h2, List.map_cons, List.sorted_cons]
        refine ⟨?_, ih hrest⟩
        intro b hb
        rcases mem_keys_smSet.mp hb with rfl | hb
        · exact h3
        · exact hall b hb

theorem smSet_eq_self {α : Type} {l : List (Int × α)} {k : Int} {v : α}
    (hs : List.Sorted (· < ·) (l.map Prod.fst)) (h : smFind l k = some v) :
    smSet l k v = l := by
  induction l with
  | nil => simp [smFind] at h
  | cons p rest ih =>
    obtain ⟨pk, pw⟩ := p
    rw [List.map_cons, List.sorted_cons] at hs
    rw [smFind_cons] at h
    by_cases h2 : pk = k
    · subst h2
      have hv : pw = v := by simpa using h
      subst hv
      simp [smSet]
    · rw [if_neg h2] at h
      have hk_mem : k ∈ rest.map Prod.fst := smFind_mem_keys h
      have h3 : pk < k := hs.1 k hk_mem
      have h1 : ¬ k < pk := by omega
      have h4 : ¬ k = pk := fun hh => h2 hh.symm
      simp [smSet, h1, h4, ih hs.2 h]

theorem smSet_smSet {α : Type} (l : List (Int × α)) (k : Int) (a b : α) :
    smSet (smSet l k a) k b = smSet l k b := by
  induction l with
  | nil => simp [smSet]
  | cons p rest ih =>
    obtain ⟨pk, pw⟩ := p
    by_cases h1 : k < pk
    · simp [smSet, h1]
    · by_cases h2 : k = pk
      · subst h2; simp [smSet, h1]
      · simp [smSet, h1, h2, ih]

theorem smFind_smErase {α : Type} (l : List (Int × α)) (k k' : Int) :
    smFind (smErase l k) k' = if k' = k then none else smFind l k' := by
  induction l with
  | nil => simp [smFind, smErase]
  | cons p rest ih =>
    unfold smErase at ih ⊢
    by_cases hk : k' = k
    · subst hk
      by_cases hpk : p.1 = k'
      · simpa [List.filter_cons, hpk] using ih
      · simpa [List.filter_cons, hpk, smFind_cons] using ih
    · by_cases hpk : p.1 = k
      · have h2 : ¬ (k : Int) = k' := fun h => hk h.symm
        simp [List.filter_cons, hpk, hk, h2, ih, smFind_cons]
      · simp [List.filter_cons, hpk, hk, ih, smFind_cons]

theorem smErase_of_none {α : Type} {l : List (Int × α)} {k : Int}
    (h : smFind l k = none) : smErase l k = l := by
  rw [smFind_eq_none_iff] at h
  unfold smErase
  rw [List.filter_eq_self]
  intro p hp
  simpa using h p hp

theorem smErase_smSet_of_none {α : Type} {l : List (Int × α)} {k : Int} (v : α)
    (h : smFind l k = none) : smErase (smSet l k v) k = l := by
  induction l with
  | nil => simp [smSet, smErase, List.filter_cons]
  | cons p rest ih =>
    obtain ⟨pk, pw⟩ := p
    rw [smFind_cons] at h
    by_cases h2 : pk = k
    · simp [h2] at h
    · rw [if_neg h2] at h
      by_cases h1 : k < pk
      · have hfull : smFind ((pk, pw) :: rest) k = none := by
          rw [smFind_cons, if_neg h2]; exact h
        have e0 : smSet ((pk, pw) :: rest) k v = (k, v) :: (pk, pw) :: rest := by
          simp [smSet, h1]
        rw [e0]
        have e1 : smErase ((k, v) :: (pk, pw) :: rest) k
            = smErase ((pk, pw) :: rest) k := by
          simp [smErase, List.filter_cons]
        rw [e1, smErase_of_none hfull]
      · have h3 : ¬ k = pk := fun hh => h2 hh.symm
        have e0 : smSet ((pk, pw) :: rest) k v = (pk, pw) :: smSet rest k v := by
          simp [smSet, h1, h3]
        rw [e0]
        have e1 : smErase ((pk, pw) :: smSet rest k v) k
            = (pk, pw) :: smErase (smSet rest k v) k := by
          simp [smErase, List.filter_cons, h2]
        rw [e1, ih h]

theorem smErase_keys_sorted {α : Type} {l : List (Int × α)} (k : Int)
    (h : List.Sorted (· < ·) (l.map Prod.fst)) :
    List.Sorted (· < ·) ((smErase l k).map Prod.fst) := by
  exact List.Pairwise.sublist (List.Sublist.map Prod.fst (List.filter_sublist l)) h

theorem findOrd_cons (o : MboSingle) (q : LvlOrdsInQ) (oid : Nat) :
    findOrd (o :: q) oid = if o.orderId = oid then some o else findOrd q oid := by
  by_cases h : o.orderId = oid
  · unfold findOrd; rw [List.find?_cons_of_pos _ (by simp [h])]; simp [h]
  · unfold findOrd; rw [List.find?_cons_of_neg _ (by simp [h])]; simp [h]

theorem mem_qIds {q : LvlOrdsInQ} {oid : Nat} :
    oid ∈ qIds q ↔ ∃ o ∈ q, o.orderId = oid := by
  simp [qIds]

theorem findOrd_eq_none_iff {q : LvlOrdsInQ} {oid : Nat} :
    findOrd q oid = none ↔ oid ∉ qIds q := by
  induction q with
  | nil => simp [findOrd, qIds]
  | cons o rest ih =>
    rw [findOrd_cons]
    by_cases h : o.orderId = oid
    · simp [h, ih, qIds]
    · simp only [if_neg h, ih, qIds, List.map_cons, List.mem_cons]
      constructor
      · intro hh
        rintro (hq | hq)
        · exact h hq.symm
        · exact hh hq
      · intro hh hq
        exact hh (Or.inr hq)

theorem findOrd_some_id {q : LvlOrdsInQ} {oid : Nat} {o : MboSingle}
    (h : findOrd q oid = some o) : o ∈ q ∧ o.orderId = oid := by
  unfold findOrd at h
  refine ⟨List.mem_of_find?_eq_some h, ?_⟩
  have := List.find?_some h
  simpa using this

theorem findOrd_concat_self {q : LvlOrdsInQ} {oid : Nat} {m : MboSingle}
    (h : findOrd q oid = none) (hm : m.orderId = oid) :
    findOrd (q ++ [m]) oid = some m := by
  unfold findOrd at h ⊢
  rw [List.find?_append, h]
  simp [hm]

theorem eraseFirstOrd_concat {q : LvlOrdsInQ} {oid : Nat} {m : MboSingle}
    (h : oid ∉ qIds q) : eraseFirstOrd (q ++ [m]) oid = q ++ (if m.orderId = oid then [] else [m]) := by
  induction q with
  | nil => by_cases hm : m.orderId = oid <;> simp [eraseFirstOrd, hm]
  | cons o rest ih =>
    rw [qIds, List.map_cons, List.mem_cons] at h
    push_neg at h
    have hne : ¬ o.orderId = oid := fun hh => h.1 hh.symm
    rw [List.cons_append]
    rw [show eraseFirstOrd (o :: (rest ++ [m])) oid
        = o :: eraseFirstOrd (rest ++ [m]) oid from by simp [eraseFirstOrd, hne]]
    rw [ih (by simpa [qIds] using h.2)]
    simp

theorem qIds_eraseFirstOrd (q : LvlOrdsInQ) (oid : Nat) :
    qIds (eraseFirstOrd q oid) = (qIds q).erase oid := by
  induction q with
  | nil => rfl
  | cons o rest ih =>
    by_cases h : o.orderId = oid
    · simp [eraseFirstOrd, h, qIds, List.erase_cons_head]
    · rw [show eraseFirstOrd (o :: rest) oid = o :: eraseFirstOrd rest oid from by
        simp [eraseFirstOrd, h]]
      rw [qIds, List.map_cons, qIds, List.map_cons,
        List.erase_cons_tail (by simp [h]), ← qIds, ← qIds, ih]

theorem eraseFirstOrd_sublist (q : LvlOrdsInQ) (oid : Nat) :
    (eraseFirstOrd q oid).Sublist q := by
  induction q with
  | nil => simp [eraseFirstOrd]
  | cons o rest ih =>
    by_cases h : o.orderId = oid
    · simp [eraseFirstOrd, h]
    · rw [show eraseFirstOrd (o :: rest) oid = o :: eraseFirstOrd rest oid from by
        simp [eraseFirstOrd, h]]
      exact List.Sublist.cons₂ o ih

theorem mem_of_mem_eraseFirstOrd {q : LvlOrdsInQ} {oid : Nat} {o : MboSingle}
    (h : o ∈ eraseFirstOrd q oid) : o ∈ q :=
  (eraseFirstOrd_sublist q oid).subset h

theorem qIds_setSizeFirstOrd (q : LvlOrdsInQ) (oid sz : Nat) :
    qIds (setSizeFirstOrd q oid sz) = qIds q := by
  induction q with
  | nil => rfl
  | cons o rest ih =>
    by_cases h : o.orderId = oid
    · simp [setSizeFirstOrd, h, qIds]
    · simp only [setSizeFirstOrd, if_neg h, qIds, List.map_cons]
      rw [← qIds, ← qIds, ih]

theorem mem_setSizeFirstOrd {q : LvlOrdsInQ} {oid sz : Nat} {o' : MboSingle}
    (h : o' ∈ setSizeFirstOrd q oid sz) :
    o' ∈ q ∨ (∃ o ∈ q, o' = { o with size := sz }) := by
  induction q with
  | nil => simp [setSizeFirstOrd] at h
  | cons o rest ih =>
    by_cases hh : o.orderId = oid
    · rw [show setSizeFirstOrd (o :: rest) oid sz = { o with size := sz } :: rest from by
        simp [setSizeFirstOrd, hh]] at h
      rcases List.mem_cons.mp h with rfl | h
      · exact Or.inr ⟨o, List.mem_cons_self o rest, rfl⟩
      · exact Or.inl (List.mem_cons_of_mem _ h)
    · rw [show setSizeFirstOrd (o :: rest) oid sz = o :: setSizeFirstOrd rest oid sz from by
        simp [setSizeFirstOrd, hh]] at h
      rcases List.mem_cons.mp h with rfl | h
      · exact Or.inl (List.mem_cons_self _ _)
      · rcases ih h with h | ⟨w, hw, rfl⟩
        · exact Or.inl (List.mem_cons_of_mem _ h)
        · exact Or.inr ⟨w, List.mem_cons_of_mem _ hw, rfl⟩

theorem consumeOrds_ids (q : LvlOrdsInQ) (r : Nat) :
    (consumeOrds q r).2 ++ qIds (consumeOrds q r).1 = qIds q := by
  induction q generalizing r with
  | nil => simp [consumeOrds, qIds]
  | cons o rest ih =>
    by_cases h0 : r = 0
    · simp [consumeOrds, h0, qIds]
    · by_cases h1 : o.size ≤ r
      · simp only [consumeOrds, if_neg h0, if_pos h1, qIds, List.map_cons]
        rw [List.cons_append, ← qIds, ← qIds, ih]
      · simp [consumeOrds, h0, h1, qIds]

theorem consumeOrds_pos {q : LvlOrdsInQ} (hq : ∀ o ∈ q, 0 < o.size) (r : Nat) :
    ∀ o' ∈ (consumeOrds q r).1, 0 < o'.size := by
  induction q generalizing r with
  | nil => simp [consumeOrds]
  | cons o rest ih =>
    by_cases h0 : r = 0
    · simpa [consumeOrds, h0] using hq
    · by_cases h1 : o.size ≤ r
      · simp only [consumeOrds, if_neg h0, if_pos h1]
        exact ih (fun x hx => hq x (List.mem_cons_of_mem _ hx)) (r - o.size)
      · simp only [consumeOrds, if_neg h0, if_neg h1]
        intro o' ho'
        rcases List.mem_cons.mp ho' with rfl | ho'
        · simp; omega
        · exact hq o' (List.mem_cons_of_mem _ ho')

theorem consumeOrds_all {q : LvlOrdsInQ} {r : Nat}
    (h : (q.map (fun o => o.size)).sum < r) : consumeOrds q r = ([], qIds q) := by
  induction q generalizing r with
  | nil => simp [consumeOrds, qIds]
  | cons o rest ih =>
    rw [List.map_cons, List.sum_cons] at h
    have h0 : ¬ r = 0 := by omega
    have h1 : o.size ≤ r := by omega
    have h2 : (rest.map (fun o => o.size)).sum < r - o.size := by omega
    simp only [consumeOrds, if_neg h0, if_pos h1, ih h2, qIds, List.map_cons]

theorem foldl_aErase_eq_filter {α : Type} (ids : List Nat) (l : List (Nat × α)) :
    ids.foldl aErase l = l.filter (fun p => decide (p.1 ∉ ids)) := by
  induction ids generalizing l with
  | nil => simp
  | cons i rest ih =>
    rw [List.foldl_cons, ih]
    unfold aErase
    rw [List.filter_filter]
    apply List.filter_congr
    intro p _
    by_cases h1 : p.1 = i <;> by_cases h2 : p.1 ∈ rest <;> simp [h1, h2]

theorem aFind_foldl_aErase {α : Type} (ids : List Nat) (l : List (Nat × α)) (k : Nat) :
    aFind (ids.foldl aErase l) k = if k ∈ ids then none else aFind l k := by
  induction ids generalizing l with
  | nil => simp
  | cons i rest ih =>
    rw [List.foldl_cons, ih]
    by_cases h1 : k ∈ rest
    · simp [h1]
    · rw [if_neg h1, aFind_aErase]
      by_cases h2 : k = i <;> simp [h1, h2]

theorem foldl_aErase_sublist {α : Type} (ids : List Nat) (l : List (Nat × α)) :
    (ids.foldl aErase l).Sublist l := by
  rw [foldl_aErase_eq_filter]
  exact List.filter_sublist l

theorem Book.sideGet_setSide_self (b : Book) {s : Sd} (hs : s ≠ Sd.None) (lv : LvlOrds) :
    (b.setSide s lv).sideGet s = lv := by
  cases s
  · rfl
  · rfl
  · exact absurd rfl hs

theorem Book.sideGet_setSide_other (b : Book) {s s' : Sd} (hne : s' ≠ s) (lv : LvlOrds) :
    (b.setSide s lv).sideGet s' = b.sideGet s' := by
  cases s <;> cases s' <;> first
    | rfl
    | exact absurd rfl hne

theorem Book.setSide_ordsById (b : Book) (s : Sd) (lv : LvlOrds) :
    (b.setSide s lv).ordsById = b.ordsById := by
  cases s <;> rfl

theorem Book.sideGet_mk_ordsById (b : Book) (idx : List (Nat × PxAndSd)) (sd : Sd) :
    (Book.sideGet { b with ordsById := idx } sd) = b.sideGet sd := by
  cases sd <;> rfl

theorem Book.eqOf {b1 b2 : Book} (h1 : b1.ordsById = b2.ordsById)
    (h2 : b1.offers = b2.offers) (h3 : b1.bids = b2.bids) : b1 = b2 := by
  cases b1; cases b2; simp_all

theorem Book.setSide_sideGet (b : Book) {s : Sd} (hs : s ≠ Sd.None) :
    b.setSide s (b.sideGet s) = b := by
  cases s
  · exact Book.eqOf rfl rfl rfl
  · exact Book.eqOf rfl rfl rfl
  · exact absurd rfl hs

theorem aFind_none_not_mem_keys {α : Type} {l : List (Nat × α)} {k : Nat}
    (h : aFind l k = none) : k ∉ l.map Prod.fst := by
  rw [aFind_eq_none_iff] at h
  intro hmem
  rcases List.mem_map.mp hmem with ⟨p, hp, hpk⟩
  exact h p hp hpk

theorem Book.wf_sorted_side {b : Book} (hwf : b.wf) (sd : Sd) :
    List.Sorted (· < ·) ((b.sideGet sd).map Prod.fst) := by
  cases sd
  · exact hwf.2.1
  · exact hwf.1
  · simp [Book.sideGet]

theorem Book.wf_of_parts {b : Book}
    (hsort : ∀ sd, sd ≠ Sd.None → List.Sorted (· < ·) ((b.sideGet sd).map Prod.fst))
    (hnod : (b.ordsById.map Prod.fst).Nodup)
    (him : b.idxMatches) (hqm : b.queuesMatch) (hqn : b.queuesNodup)
    (hne : b.noEmptyLvls) : b.wf :=
  ⟨hsort Sd.Bid (by simp), hsort Sd.Ask (by simp), hnod, him, hqm, hqn, hne⟩

theorem Book.not_in_queues {b : Book} (hq : b.queuesMatch) {oid : Nat}
    (h : aFind b.ordsById oid = none) :
    ∀ sd px q, smFind (b.sideGet sd) px = some q → oid ∉ qIds q := by
  intro sd px q hl hmem
  rw [hq sd px q hl oid hmem] at h
  exact Option.noConfusion h

theorem Book.loc_unique {b : Book} (hq : b.queuesMatch) {oid : Nat} {sd sd' : Sd}
    {px px' : Int} {q q' : LvlOrdsInQ}
    (h1 : smFind (b.sideGet sd) px = some q) (hm1 : oid ∈ qIds q)
    (h2 : smFind (b.sideGet sd') px' = some q') (hm2 : oid ∈ qIds q') :
    sd = sd' ∧ px = px' := by
  have e1 := hq sd px q h1 oid hm1
  have e2 := hq sd' px' q' h2 oid hm2
  rw [e1] at e2
  injection e2 with e2
  rw [PxAndSd.mk.injEq] at e2
  exact ⟨e2.2, e2.1⟩

theorem Book.wf_empty : Book.emptyBook.wf := by
  refine Book.wf_of_parts ?_ ?_ ?_ ?_ ?_ ?_
  · intro sd _; cases sd <;> simp [Book.sideGet, Book.emptyBook]
  · simp [Book.emptyBook]
  · intro oid ps h; simp [Book.emptyBook, aFind] at h
  · intro sd px q h; cases sd <;> simp [Book.sideGet, Book.emptyBook, smFind] at h
  · intro sd px q h; cases sd <;> simp [Book.sideGet, Book.emptyBook, smFind] at h
  · intro sd px q h; cases sd <;> simp [Book.sideGet, Book.emptyBook, smFind] at h

theorem Book.Add_ok_shape {b b' : Book} {m : MboSingle} (h : b.Add m = .ok b') :
    m.side ≠ Sd.None ∧ aFind b.ordsById m.orderId = none ∧
    b' = { b.setSide m.side (smSet (b.sideGet m.side) m.price
            (((smFind (b.sideGet m.side) m.price).getD []) ++ [m])) with
           ordsById := b.ordsById ++ [(m.orderId, ⟨m.price, m.side⟩)] } := by
  unfold Book.Add at h
  by_cases hs : m.side = Sd.None
  · simp [hs] at h
  · rw [if_neg hs] at h
    rcases hfind : aFind b.ordsById m.orderId with _ | v
    · simp only [hfind] at h
      injection h with h
      exact ⟨hs, rfl, h.symm⟩
    · simp only [hfind] at h
      exact Except.noConfusion h

theorem qIds_append (q1 q2 : LvlOrdsInQ) : qIds (q1 ++ q2) = qIds q1 ++ qIds q2 :=
  List.map_append _ _ _

theorem qIds_singleton (m : MboSingle) : qIds [m] = [m.orderId] := rfl

theorem Book.wf_Add {b b' : Book} {m : MboSingle} (hwf : b.wf) (h : b.Add m = .ok b') :
    b'.wf := by
  obtain ⟨hs, hid, hb'⟩ := Book.Add_ok_shape h
  have hnod := hwf.2.2.1
  have him := hwf.2.2.2.1
  have hqm := hwf.2.2.2.2.1
  have hqn := hwf.2.2.2.2.2.1
  have hne := hwf.2.2.2.2.2.2
  set q : LvlOrdsInQ := (smFind (b.sideGet m.side) m.price).getD [] with hqdef
  have hIdx : b'.ordsById = b.ordsById ++ [(m.orderId, ⟨m.price, m.side⟩)] := by rw [hb']
  have hSideS : b'.sideGet m.side = smSet (b.sideGet m.side) m.price (q ++ [m]) := by
    rw [hb', Book.sideGet_mk_ordsById]
    exact b.sideGet_setSide_self hs _
  have hSideO : ∀ sd, sd ≠ m.side → b'.sideGet sd = b.sideGet sd := by
    intro sd hsd
    rw [hb', Book.sideGet_mk_ordsById]
    exact b.sideGet_setSide_other hsd _
  have hsmf : ∀ sd px', smFind (b'.sideGet sd) px' =
      if sd = m.side ∧ px' = m.price then some (q ++ [m])
      else smFind (b.sideGet sd) px' := by
    intro sd px'
    by_cases hsd : sd = m.side
    · subst hsd
      rw [hSideS]
      by_cases hpx : px' = m.price
      · subst hpx
        rw [if_pos ⟨rfl, rfl⟩, smFind_smSet_self]
      · rw [if_neg (fun hc => hpx hc.2), smFind_smSet_ne _ _ _ hpx]
    · rw [hSideO sd hsd, if_neg (fun hc => hsd hc.1)]
  have hFind : ∀ k, aFind b'.ordsById k =
      if k = m.orderId then some ⟨m.price, m.side⟩ else aFind b.ordsById k := by
    intro k
    rw [hIdx, aFind_append]
    by_cases hk : k = m.orderId
    · subst hk
      rw [hid, if_pos rfl]
      simp [aFind_cons]
    · rw [if_neg hk]
      have hsingle : aFind [(m.orderId, (⟨m.price, m.side⟩ : PxAndSd))] k = none := by
        rw [aFind_cons, if_neg (fun hh => hk hh.symm)]; rfl
      rw [hsingle]
      cases aFind b.ordsById k <;> rfl
  have hqOld : ∀ q0, smFind (b.sideGet m.side) m.price = some q0 → q = q0 := by
    intro q0 h0; rw [hqdef, h0]; rfl
  have hqMem : ∀ k, k ∈ qIds q → aFind b.ordsById k = some ⟨m.price, m.side⟩ := by
    intro k hk
    rcases h0 : smFind (b.sideGet m.side) m.price with _ | q0
    · rw [hqdef, h0] at hk; simp [qIds] at hk
    · rw [hqOld q0 h0] at hk
      exact hqm m.side m.price q0 h0 k hk
  have hqNodup : (qIds q).Nodup := by
    rcases h0 : smFind (b.sideGet m.side) m.price with _ | q0
    · rw [hqdef, h0]; simp [qIds]
    · rw [hqOld q0 h0]; exact hqn m.side m.price q0 h0
  have hkne_of_mem : ∀ k, k ∈ qIds q → ¬ k = m.orderId := by
    intro k hk hkeq
    subst hkeq
    rw [hqMem m.orderId hk] at hid
    exact Option.noConfusion hid
  refine Book.wf_of_parts ?_ ?_ ?_ ?_ ?_ ?_
  · intro sd _
    by_cases hsds : sd = m.side
    · subst hsds
      rw [hSideS]
      exact smSet_sorted _ _ (Book.wf_sorted_side hwf m.side)
    · rw [hSideO sd hsds]
      exact Book.wf_sorted_side hwf sd
  · rw [hIdx, List.map_append]
    rw [List.nodup_append]
    refine ⟨hnod, List.nodup_singleton _, ?_⟩
    intro a ha hb
    simp only [List.map_cons, List.map_nil, List.mem_singleton] at hb
    subst hb
    exact aFind_none_not_mem_keys hid ha
  · intro k ps hk
    rw [hFind k] at hk
    by_cases hko : k = m.orderId
    · subst hko
      rw [if_pos rfl] at hk
      injection hk with hk
      subst hk
      refine ⟨q ++ [m], ?_, ?_⟩
      · rw [hsmf, if_pos ⟨rfl, rfl⟩]
      · rw [qIds_append, qIds_singleton]
        exact List.mem_append_right _ (List.mem_singleton_self _)
    · rw [if_neg hko] at hk
      obtain ⟨q', hq', hmem⟩ := him k ps hk
      by_cases hcase : ps.side = m.side ∧ ps.price = m.price
      · obtain ⟨hc1, hc2⟩ := hcase
        have hqq : q = q' := hqOld q' (by rw [← hc1, ← hc2]; exact hq')
        refine ⟨q ++ [m], ?_, ?_⟩
        · rw [hsmf, if_pos ⟨hc1, hc2⟩]
        · rw [qIds_append]
          exact List.mem_append_left _ (hqq ▸ hmem)
      · refine ⟨q', ?_, hmem⟩
        rw [hsmf, if_neg hcase]
        exact hq'
  · intro sd px' q'' hq'' k hkmem
    rw [hsmf] at hq''
    by_cases hcase : sd = m.side ∧ px' = m.price
    · rw [if_pos hcase] at hq''
      injection hq'' with hq''
      subst hq''
      obtain ⟨rfl, rfl⟩ := hcase
      rw [qIds_append, qIds_singleton] at hkmem
      rcases List.mem_append.mp hkmem with hk | hk
      · have hfk := hqMem k hk
        rw [hFind k, if_neg (hkne_of_mem k hk)]
        exact hfk
      · rw [List.mem_singleton] at hk
        subst hk
        rw [hFind, if_pos rfl]
    · rw [if_neg hcase] at hq''
      have hfk := hqm sd px' q'' hq'' k hkmem
      have hkne : ¬ k = m.orderId := by
        intro hkeq
        rw [hkeq] at hfk
        rw [hfk] at hid
        exact Option.noConfusion hid
      rw [hFind k, if_neg hkne]
      exact hfk
  · intro sd px' q'' hq''
    rw [hsmf] at hq''
    by_cases hcase : sd = m.side ∧ px' = m.price
    · rw [if_pos hcase] at hq''
      injection hq'' with hq''
      subst hq''
      rw [qIds_append, qIds_singleton, List.nodup_append]
      refine ⟨hqNodup, List.nodup_singleton _, ?_⟩
      intro a ha hb
      rw [List.mem_singleton] at hb
      exact hkne_of_mem a ha hb
    · rw [if_neg hcase] at hq''
      exact hqn sd px' q'' hq''
  · intro sd px' q'' hq''
    rw [hsmf] at hq''
    by_cases hcase : sd = m.side ∧ px' = m.price
    · rw [if_pos hcase] at hq''
      injection hq'' with hq''
      subst hq''
      simp
    · rw [if_neg hcase] at hq''
      exact hne sd px' q'' hq''

theorem aErase_keys_nodup {α : Type} {l : List (Nat × α)} (k : Nat)
    (h : (l.map Prod.fst).Nodup) : ((aErase l k).map Prod.fst).Nodup :=
  List.Nodup.sublist (List.Sublist.map Prod.fst (List.filter_sublist l)) h

theorem foldl_aErase_keys_nodup {α : Type} {l : List (Nat × α)} (ids : List Nat)
    (h : (l.map Prod.fst).Nodup) : ((ids.foldl aErase l).map Prod.fst).Nodup :=
  List.Nodup.sublist (List.Sublist.map Prod.fst (foldl_aErase_sublist ids l)) h

theorem Book.wf_replaceQueue {b : Book} {s : Sd} (hs : s ≠ Sd.None) {px : Int}
    {q q' : LvlOrdsInQ} (hwf : b.wf) (hq : smFind (b.sideGet s) px = some q)
    (hids : ∀ k, k ∈ qIds q' ↔ k ∈ qIds q) (hnd : (qIds q').Nodup) (hne' : q' ≠ []) :
    (b.setSide s (smSet (b.sideGet s) px q')).wf := by
  have him := hwf.2.2.2.1
  have hqm := hwf.2.2.2.2.1
  have hqn := hwf.2.2.2.2.2.1
  have hne := hwf.2.2.2.2.2.2
  have hIdx : (b.setSide s (smSet (b.sideGet s) px q')).ordsById = b.ordsById :=
    b.setSide_ordsById _ _
  have hsmf : ∀ sd px', smFind ((b.setSide s (smSet (b.sideGet s) px q')).sideGet sd) px' =
      if sd = s ∧ px' = px then some q' else smFind (b.sideGet sd) px' := by
    intro sd px'
    by_cases hsd : sd = s
    · subst hsd
      rw [b.sideGet_setSide_self hs]
      by_cases hpx : px' = px
      · subst hpx; rw [if_pos ⟨rfl, rfl⟩, smFind_smSet_self]
      · rw [if_neg (fun hc => hpx hc.2), smFind_smSet_ne _ _ _ hpx]
    · rw [b.sideGet_setSide_other hsd, if_neg (fun hc => hsd hc.1)]
  refine Book.wf_of_parts ?_ ?_ ?_ ?_ ?_ ?_
  · intro sd _
    by_cases hsds : sd = s
    · subst hsds
      rw [b.sideGet_setSide_self hs]
      exact smSet_sorted _ _ (Book.wf_sorted_side hwf _)
    · rw [b.sideGet_setSide_other hsds]
      exact Book.wf_sorted_side hwf sd
  · rw [hIdx]; exact hwf.2.2.1
  · intro k ps hk
    rw [hIdx] at hk
    obtain ⟨q0, hq0, hmem⟩ := him k ps hk
    by_cases hcase : ps.side = s ∧ ps.price = px
    · obtain ⟨hc1, hc2⟩ := hcase
      have hqq : q0 = q := by
        rw [hc1, hc2] at hq0
        rw [hq0] at hq
        injection hq
      refine ⟨q', ?_, ?_⟩
      · rw [hsmf, if_pos ⟨hc1, hc2⟩]
      · exact (hids k).mpr (hqq ▸ hmem)
    · refine ⟨q0, ?_, hmem⟩
      rw [hsmf, if_neg hcase]
      exact hq0
  · intro sd px' q'' hq'' k hkmem
    rw [hsmf] at hq''
    rw [hIdx]
    by_cases hcase : sd = s ∧ px' = px
    · rw [if_pos hcase] at hq''
      injection hq'' with hq''
      subst hq''
      obtain ⟨rfl, rfl⟩ := hcase
      exact hqm sd px' q hq k ((hids k).mp hkmem)
    · rw [if_neg hcase] at hq''
      exact hqm sd px' q'' hq'' k hkmem
  · intro sd px' q'' hq''
    rw [hsmf] at hq''
    by_cases hcase : sd = s ∧ px' = px
    · rw [if_pos hcase] at hq''
      injection hq'' with hq''
      subst hq''
      exact hnd
    · rw [if_neg hcase] at hq''
      exact hqn sd px' q'' hq''
  · intro sd px' q'' hq''
    rw [hsmf] at hq''
    by_cases hcase : sd = s ∧ px' = px
    · rw [if_pos hcase] at hq''
      injection hq'' with hq''
      subst hq''
      exact hne'
    · rw [if_neg hcase] at hq''
      exact hne sd px' q'' hq''

theorem Book.wf_removeOrd {b : Book} {s : Sd} (hs : s ≠ Sd.None) {px : Int}
    {q : LvlOrdsInQ} {oid : Nat} (hwf : b.wf) (hq : smFind (b.sideGet s) px = some q)
    (hrec : aFind b.ordsById oid = some ⟨px, s⟩) :
    Book.wf { b.setSide s
        (if eraseFirstOrd q oid = [] then smErase (b.sideGet s) px
         else smSet (b.sideGet s) px (eraseFirstOrd q oid)) with
      ordsById := aErase b.ordsById oid } := by
  have him := hwf.2.2.2.1
  have hqm := hwf.2.2.2.2.1
  have hqn := hwf.2.2.2.2.2.1
  have hne := hwf.2.2.2.2.2.2
  have hqnq : (qIds q).Nodup := hqn s px q hq
  have hq2ids : qIds (eraseFirstOrd q oid) = (qIds q).erase oid := qIds_eraseFirstOrd q oid
  set q2 : LvlOrdsInQ := eraseFirstOrd q oid with hq2def
  set lv2 : LvlOrds :=
    (if q2 = [] then smErase (b.sideGet s) px else smSet (b.sideGet s) px q2) with hlv2
  set B : Book := { b.setSide s lv2 with ordsById := aErase b.ordsById oid } with hB
  have hIdx : B.ordsById = aErase b.ordsById oid := by rw [hB]
  have hSide : ∀ sd, B.sideGet sd = (b.setSide s lv2).sideGet sd := by
    intro sd
    rw [hB, Book.sideGet_mk_ordsById]
  have hsmf : ∀ sd px', smFind (B.sideGet sd) px' =
      if sd = s ∧ px' = px then (if q2 = [] then none else some q2)
      else smFind (b.sideGet sd) px' := by
    intro sd px'
    rw [hSide]
    by_cases hsd : sd = s
    · subst hsd
      rw [b.sideGet_setSide_self hs]
      by_cases hq2e : q2 = []
      · rw [hlv2, if_pos hq2e]
        rw [smFind_smErase]
        by_cases hpx : px' = px
        · rw [if_pos hpx, if_pos ⟨rfl, hpx⟩, if_pos hq2e]
        · rw [if_neg hpx, if_neg (fun hc => hpx hc.2)]
      · rw [hlv2, if_neg hq2e]
        by_cases hpx : px' = px
        · subst hpx
          rw [if_pos ⟨rfl, rfl⟩, if_neg hq2e, smFind_smSet_self]
        · rw [if_neg (fun hc => hpx hc.2), smFind_smSet_ne _ _ _ hpx]
    · rw [b.sideGet_setSide_other hsd, if_neg (fun hc => hsd hc.1)]
  have hFind : ∀ k, aFind B.ordsById k =
      if k = oid then none else aFind b.ordsById k := by
    intro k
    rw [hIdx, aFind_aErase]
  refine Book.wf_of_parts ?_ ?_ ?_ ?_ ?_ ?_
  · intro sd _
    rw [hSide]
    by_cases hsds : sd = s
    · subst hsds
      rw [b.sideGet_setSide_self hs, hlv2]
      by_cases hq2e : q2 = []
      · rw [if_pos hq2e]
        exact smErase_keys_sorted _ (Book.wf_sorted_side hwf _)
      · rw [if_neg hq2e]
        exact smSet_sorted _ _ (Book.wf_sorted_side hwf _)
    · rw [b.sideGet_setSide_other hsds]
      exact Book.wf_sorted_side hwf sd
  · rw [hIdx]
    exact aErase_keys_nodup _ hwf.2.2.1
  · intro k ps hk
    rw [hFind k] at hk
    by_cases hko : k = oid
    · rw [if_pos hko] at hk
      exact Option.noConfusion hk
    · rw [if_neg hko] at hk
      obtain ⟨q0, hq0, hmem⟩ := him k ps hk
      by_cases hcase : ps.side = s ∧ ps.price = px
      · obtain ⟨hc1, hc2⟩ := hcase
        have hqq : q0 = q := by
          rw [hc1, hc2] at hq0
          rw [hq0] at hq
          injection hq
        have hkq2 : k ∈ qIds q2 := by
          rw [hq2ids]
          exact (List.mem_erase_of_ne hko).mpr (hqq ▸ hmem)
        have hq2ne : q2 ≠ [] := by
          intro hnil
          rw [hnil] at hkq2
          simp [qIds] at hkq2
        refine ⟨q2, ?_, hkq2⟩
        rw [hsmf, if_pos ⟨hc1, hc2⟩, if_neg hq2ne]
      · refine ⟨q0, ?_, hmem⟩
        rw [hsmf, if_neg hcase]
        exact hq0
  · intro sd px' q'' hq'' k hkmem
    rw [hsmf] at hq''
    by_cases hcase : sd = s ∧ px' = px
    · rw [if_pos hcase] at hq''
      by_cases hq2e : q2 = []
      · rw [if_pos hq2e] at hq''
        exact Option.noConfusion hq''
      · rw [if_neg hq2e] at hq''
        injection hq'' with hq''
        subst hq''
        obtain ⟨rfl, rfl⟩ := hcase
        have hkq : k ∈ qIds q := by
          rw [hq2ids] at hkmem
          exact (List.erase_sublist _ _).subset hkmem
        have hkne : ¬ k = oid := by
          intro hkeq
          subst hkeq
          rw [hq2ids] at hkmem
          exact (List.Nodup.not_mem_erase hqnq) hkmem
        rw [hFind k, if_neg hkne]
        exact hqm sd px' q hq k hkq
    · rw [if_neg hcase] at hq''
      have hfk := hqm sd px' q'' hq'' k hkmem
      have hkne : ¬ k = oid := by
        intro hkeq
        subst hkeq
        rw [hfk] at hrec
        injection hrec with hrec
        rw [PxAndSd.mk.injEq] at hrec
        exact hcase ⟨hrec.2, hrec.1⟩
      rw [hFind k, if_neg hkne]
      exact hfk
  · intro sd px' q'' hq''
    rw [hsmf] at hq''
    by_cases hcase : sd = s ∧ px' = px
    · rw [if_pos hcase] at hq''
      by_cases hq2e : q2 = []
      · rw [if_pos hq2e] at hq''
        exact Option.noConfusion hq''
      · rw [if_neg hq2e] at hq''
        injection hq'' with hq''
        subst hq''
        rw [hq2ids]
        exact List.Nodup.erase _ hqnq
    · rw [if_neg hcase] at hq''
      exact hqn sd px' q'' hq''
  · intro sd px' q'' hq''
    rw [hsmf] at hq''
    by_cases hcase : sd = s ∧ px' = px
    · rw [if_pos hcase] at hq''
      by_cases hq2e : q2 = []
      · rw [if_pos hq2e] at hq''
        exact Option.noConfusion hq''
      · rw [if_neg hq2e] at hq''
        injection hq'' with hq''
        subst hq''
        exact hq2e
    · rw [if_neg hcase] at hq''
      exact hne sd px' q'' hq''

theorem Book.wf_Cancel {b b' : Book} {m : MboSingle} (hwf : b.wf) (h : b.Cancel m = .ok b') :
    b'.wf := by
  unfold Book.Cancel at h
  rcases hfind : aFind b.ordsById m.orderId with _ | ps
  · simp only [hfind] at h
    injection h with h
    subst h
    exact hwf
  · simp only [hfind] at h
    by_cases hside : ps.side = Sd.None
    · rw [if_pos hside] at h
      exact Except.noConfusion h
    · rw [if_neg hside] at h
      rcases hlvl : smFind (b.sideGet ps.side) ps.price with _ | q
      · simp only [hlvl] at h
        exact Except.noConfusion h
      · simp only [hlvl] at h
        rcases hord : findOrd q m.orderId with _ | o
        · simp only [hord] at h
          injection h with h
          subst h
          exact hwf
        · simp only [hord] at h
          have hrec : aFind b.ordsById m.orderId = some ⟨ps.price, ps.side⟩ := by
            rw [hfind]
          by_cases hz : (if o.size < m.size then 0 else o.size - m.size) = 0
          · rw [if_pos hz] at h
            injection h with h
            subst h
            exact Book.wf_removeOrd hside hwf hlvl hrec
          · rw [if_neg hz] at h
            injection h with h
            subst h
            apply Book.wf_replaceQueue hside hwf hlvl
            · intro k
              rw [qIds_setSizeFirstOrd]
            · rw [qIds_setSizeFirstOrd]
              exact hwf.2.2.2.2.2.1 _ _ _ hlvl
            · intro hnil
              have hql : qIds (setSizeFirstOrd q m.orderId
                  (if o.size < m.size then 0 else o.size - m.size)) = [] := by
                rw [hnil]; rfl
              rw [qIds_setSizeFirstOrd] at hql
              exact hwf.2.2.2.2.2.2 _ _ _ hlvl (List.map_eq_nil_iff.mp hql)

theorem Book.wf_moveOrd {b : Book} {s : Sd} (hs : s ≠ Sd.None) {px px' : Int}
    {q : LvlOrdsInQ} {oid : Nat} {m : MboSingle} (hwf : b.wf)
    (hq : smFind (b.sideGet s) px = some q)
    (hrec : aFind b.ordsById oid = some ⟨px, s⟩)
    (hpxne : px' ≠ px) (hmoid : m.orderId = oid) :
    Book.wf { b.setSide s
        (smSet (if eraseFirstOrd q oid = [] then smErase (b.sideGet s) px
                else smSet (b.sideGet s) px (eraseFirstOrd q oid)) px'
          (((smFind (if eraseFirstOrd q oid = [] then smErase (b.sideGet s) px
                     else smSet (b.sideGet s) px (eraseFirstOrd q oid)) px').getD []) ++ [m])) with
      ordsById := aUpd b.ordsById oid ⟨px', s⟩ } := by
  have hnod := hwf.2.2.1
  have him := hwf.2.2.2.1
  have hqm := hwf.2.2.2.2.1
  have hqn := hwf.2.2.2.2.2.1
  have hne := hwf.2.2.2.2.2.2
  have hqnq : (qIds q).Nodup := hqn s px q hq
  have hq2ids : qIds (eraseFirstOrd q oid) = (qIds q).erase oid := qIds_eraseFirstOrd q oid
  set q2 : LvlOrdsInQ := eraseFirstOrd q oid with hq2def
  set lv1 : LvlOrds :=
    (if q2 = [] then smErase (b.sideGet s) px else smSet (b.sideGet s) px q2) with hlv1
  set newQ : LvlOrdsInQ := (smFind lv1 px').getD [] with hnewQ
  set B : Book := { b.setSide s (smSet lv1 px' (newQ ++ [m])) with
    ordsById := aUpd b.ordsById oid ⟨px', s⟩ } with hB
  have hsm1 : ∀ x, smFind lv1 x =
      if x = px then (if q2 = [] then none else some q2)
      else smFind (b.sideGet s) x := by
    intro x
    by_cases hq2e : q2 = []
    · rw [hlv1, if_pos hq2e, smFind_smErase]
      by_cases hx : x = px
      · rw [if_pos hx, if_pos hx, if_pos hq2e]
      · rw [if_neg hx, if_neg hx]
    · rw [hlv1, if_neg hq2e]
      by_cases hx : x = px
      · subst hx
        rw [if_pos rfl, if_neg hq2e, smFind_smSet_self]
      · rw [if_neg hx, smFind_smSet_ne _ _ _ hx]
  have hnewQ_old : newQ = (smFind (b.sideGet s) px').getD [] := by
    rw [hnewQ, hsm1, if_neg hpxne]
  have hNewMem : ∀ k, k ∈ qIds newQ → aFind b.ordsById k = some ⟨px', s⟩ := by
    intro k hk
    rw [hnewQ_old] at hk
    rcases h0 : smFind (b.sideGet s) px' with _ | q0
    · rw [h0] at hk; simp [qIds] at hk
    · rw [h0] at hk
      exact hqm s px' q0 h0 k hk
  have hNewNodup : (qIds newQ).Nodup := by
    rw [hnewQ_old]
    rcases h0 : smFind (b.sideGet s) px' with _ | q0
    · simp [qIds]
    · simpa using hqn s px' q0 h0
  have hOidNotInNew : oid ∉ qIds newQ := by
    intro hk
    have := hNewMem oid hk
    rw [hrec] at this
    injection this with this
    rw [PxAndSd.mk.injEq] at this
    exact hpxne this.1.symm
  have hSide : ∀ sd, B.sideGet sd = (b.setSide s (smSet lv1 px' (newQ ++ [m]))).sideGet sd := by
    intro sd
    rw [hB, Book.sideGet_mk_ordsById]
  have hsmf : ∀ sd x, smFind (B.sideGet sd) x =
      if sd = s ∧ x = px' then some (newQ ++ [m])
      else if sd = s ∧ x = px then (if q2 = [] then none else some q2)
      else smFind (b.sideGet sd) x := by
    intro sd x
    rw [hSide]
    by_cases hsd : sd = s
    · subst hsd
      rw [b.sideGet_setSide_self hs]
      by_cases hx : x = px'
      · subst hx
        rw [if_pos ⟨rfl, rfl⟩, smFind_smSet_self]
      · rw [if_neg (fun hc => hx hc.2), smFind_smSet_ne _ _ _ hx, hsm1]
        by_cases hx2 : x = px
        · rw [if_pos hx2, if_pos (show sd = sd ∧ x = px from ⟨rfl, hx2⟩)]
        · rw [if_neg hx2, if_neg (fun hc => hx2 hc.2)]
    · rw [b.sideGet_setSide_other hsd, if_neg (fun hc => hsd hc.1),
        if_neg (fun hc => hsd hc.1)]
  have hFind : ∀ k, aFind B.ordsById k =
      if k = oid then some ⟨px', s⟩ else aFind b.ordsById k := by
    intro k
    rw [hB]
    show aFind (aUpd b.ordsById oid ⟨px', s⟩) k = _
    rw [aFind_aUpd]
    by_cases hk : k = oid
    · rw [if_pos hk, if_pos hk, hrec]
      rfl
    · rw [if_neg hk, if_neg hk]
  refine Book.wf_of_parts ?_ ?_ ?_ ?_ ?_ ?_
  · intro sd _
    rw [hSide]
    by_cases hsds : sd = s
    · subst hsds
      rw [b.sideGet_setSide_self hs]
      apply smSet_sorted
      by_cases hq2e : q2 = []
      · rw [hlv1, if_pos hq2e]
        exact smErase_keys_sorted _ (Book.wf_sorted_side hwf _)
      · rw [hlv1, if_neg hq2e]
        exact smSet_sorted _ _ (Book.wf_sorted_side hwf _)
    · rw [b.sideGet_setSide_other hsds]
      exact Book.wf_sorted_side hwf sd
  · rw [hB]
    show ((aUpd b.ordsById oid ⟨px', s⟩).map Prod.fst).Nodup
    rw [aUpd_keys]
    exact hnod
  · intro k ps hk
    rw [hFind k] at hk
    by_cases hko : k = oid
    · rw [if_pos hko] at hk
      injection hk with hk
      subst hk
      refine ⟨newQ ++ [m], ?_, ?_⟩
      · rw [hsmf, if_pos ⟨rfl, rfl⟩]
      · rw [qIds_append, qIds_singleton, hmoid, hko]
        exact List.mem_append_right _ (List.mem_singleton_self _)
    · rw [if_neg hko] at hk
      obtain ⟨q0, hq0, hmem⟩ := him k ps hk
      by_cases hc1 : ps.side = s ∧ ps.price = px'
      · obtain ⟨hc1a, hc1b⟩ := hc1
        have hq0new : q0 = newQ := by
          rw [hc1a, hc1b] at hq0
          rw [hnewQ_old, hq0]
          rfl
        refine ⟨newQ ++ [m], ?_, ?_⟩
        · rw [hsmf, if_pos ⟨hc1a, hc1b⟩]
        · rw [qIds_append]
          exact List.mem_append_left _ (hq0new ▸ hmem)
      · by_cases hc2 : ps.side = s ∧ ps.price = px
        · obtain ⟨hc2a, hc2b⟩ := hc2
          have hq0q : q0 = q := by
            rw [hc2a, hc2b] at hq0
            rw [hq0] at hq
            injection hq
          have hkq2 : k ∈ qIds q2 := by
            rw [hq2ids]
            exact (List.mem_erase_of_ne hko).mpr (hq0q ▸ hmem)
          have hq2ne : q2 ≠ [] := by
            intro hnil
            rw [hnil] at hkq2
            simp [qIds] at hkq2
          refine ⟨q2, ?_, hkq2⟩
          rw [hsmf, if_neg (fun hc => hc1 ⟨hc.1, hc.2⟩), if_pos ⟨hc2a, hc2b⟩,
            if_neg hq2ne]
        · refine ⟨q0, ?_, hmem⟩
          rw [hsmf, if_neg hc1, if_neg hc2]
          exact hq0
  · intro sd x q'' hq'' k hkmem
    rw [hsmf] at hq''
    by_cases hc1 : sd = s ∧ x = px'
    · rw [if_pos hc1] at hq''
      injection hq'' with hq''
      subst hq''
      obtain ⟨rfl, rfl⟩ := hc1
      rw [qIds_append, qIds_singleton, hmoid] at hkmem
      rcases List.mem_append.mp hkmem with hk | hk
      · have hfk := hNewMem k hk
        have hkne : ¬ k = oid := by
          intro hkeq
          subst hkeq
          exact hOidNotInNew hk
        rw [hFind k, if_neg hkne]
        exact hfk
      · rw [List.mem_singleton] at hk
        subst hk
        rw [hFind, if_pos rfl]
    · rw [if_neg hc1] at hq''
      by_cases hc2 : sd = s ∧ x = px
      · rw [if_pos hc2] at hq''
        by_cases hq2e : q2 = []
        · rw [if_pos hq2e] at hq''
          exact Option.noConfusion hq''
        · rw [if_neg hq2e] at hq''
          injection hq'' with hq''
          subst hq''
          obtain ⟨rfl, rfl⟩ := hc2
          have hkq : k ∈ qIds q := by
            rw [hq2ids] at hkmem
            exact (List.erase_sublist _ _).subset hkmem
          have hkne : ¬ k = oid := by
            intro hkeq
            subst hkeq
            rw [hq2ids] at hkmem
            exact (List.Nodup.not_mem_erase hqnq) hkmem
          rw [hFind k, if_neg hkne]
          exact hqm sd x q hq k hkq
      · rw [if_neg hc2] at hq''
        have hfk := hqm sd x q'' hq'' k hkmem
        have hkne : ¬ k = oid := by
          intro hkeq
          subst hkeq
          rw [hfk] at hrec
          injection hrec with hrec
          rw [PxAndSd.mk.injEq] at hrec
          exact hc2 ⟨hrec.2, hrec.1⟩
        rw [hFind k, if_neg hkne]
        exact hfk
  · intro sd x q'' hq''
    rw [hsmf] at hq''
    by_cases hc1 : sd = s ∧ x = px'
    · rw [if_pos hc1] at hq''
      injection hq'' with hq''
      subst hq''
      rw [qIds_append, qIds_singleton, hmoid, List.nodup_append]
      refine ⟨hNewNodup, List.nodup_singleton _, ?_⟩
      intro a ha hb
      rw [List.mem_singleton] at hb
      subst hb
      exact hOidNotInNew ha
    · rw [if_neg hc1] at hq''
      by_cases hc2 : sd = s ∧ x = px
      · rw [if_pos hc2] at hq''
        by_cases hq2e : q2 = []
        · rw [if_pos hq2e] at hq''
          exact Option.noConfusion hq''
        · rw [if_neg hq2e] at hq''
          injection hq'' with hq''
          subst hq''
          rw [hq2ids]
          exact List.Nodup.erase _ hqnq
      · rw [if_neg hc2] at hq''
        exact hqn sd x q'' hq''
  · intro sd x q'' hq''
    rw [hsmf] at hq''
    by_cases hc1 : sd = s ∧ x = px'
    · rw [if_pos hc1] at hq''
      injection hq'' with hq''
      subst hq''
      simp
    · rw [if_neg hc1] at hq''
      by_cases hc2 : sd = s ∧ x = px
      · rw [if_pos hc2] at hq''
        by_cases hq2e : q2 = []
        · rw [if_pos hq2e] at hq''
          exact Option.noConfusion hq''
        · rw [if_neg hq2e] at hq''
          injection hq'' with hq''
          subst hq''
          exact hq2e
      · rw [if_neg hc2] at hq''
        exact hne sd x q'' hq''

theorem Book.wf_Modify {b b' : Book} {m : MboSingle} (hwf : b.wf) (h : b.Modify m = .ok b') :
    b'.wf := by
  unfold Book.Modify at h
  rcases hfind : aFind b.ordsById m.orderId with _ | ps
  · simp only [hfind] at h
    exact Book.wf_Add hwf h
  · simp only [hfind] at h
    by_cases hseq : ps.side = m.side
    · rw [if_pos hseq] at h
      by_cases hnone : m.side = Sd.None
      · rw [if_pos hnone] at h
        exact Except.noConfusion h
      · rw [if_neg hnone] at h
        rcases hlvl : smFind (b.sideGet m.side) ps.price with _ | q
        · simp only [hlvl] at h
          exact Except.noConfusion h
        · simp only [hlvl] at h
          rcases hord : findOrd q m.orderId with _ | o
          · simp only [hord] at h
            injection h with h
            subst h
            exact hwf
          · simp only [hord] at h
            have hoidq : m.orderId ∈ qIds q := by
              obtain ⟨hoq, hoid⟩ := findOrd_some_id hord
              exact mem_qIds.mpr ⟨o, hoq, hoid⟩
            have hqnodup : (qIds q).Nodup := hwf.2.2.2.2.2.1 _ _ _ hlvl
            by_cases hpx : ps.price = m.price
            · rw [if_pos hpx] at h
              rw [hpx] at hlvl
              by_cases hsz : o.size < m.size
              · rw [if_pos hsz] at h
                injection h with h
                subst h
                apply Book.wf_replaceQueue hnone hwf hlvl
                · intro k
                  rw [qIds_append, qIds_singleton, qIds_eraseFirstOrd]
                  constructor
                  · intro hk
                    rcases List.mem_append.mp hk with hk | hk
                    · exact (List.erase_sublist _ _).subset hk
                    · rw [List.mem_singleton] at hk
                      subst hk
                      exact hoidq
                  · intro hk
                    by_cases hko : k = m.orderId
                    · subst hko
                      exact List.mem_append_right _ (List.mem_singleton_self _)
                    · exact List.mem_append_left _ ((List.mem_erase_of_ne hko).mpr hk)
                · rw [qIds_append, qIds_singleton, qIds_eraseFirstOrd, List.nodup_append]
                  refine ⟨List.Nodup.erase _ hqnodup, List.nodup_singleton _, ?_⟩
                  intro a ha hb
                  rw [List.mem_singleton] at hb
                  subst hb
                  exact (List.Nodup.not_mem_erase hqnodup) ha
                · simp
              · rw [if_neg hsz] at h
                injection h with h
                subst h
                apply Book.wf_replaceQueue hnone hwf hlvl
                · intro k
                  rw [qIds_setSizeFirstOrd]
                · rw [qIds_setSizeFirstOrd]
                  exact hqnodup
                · intro hnil
                  have hql : qIds (setSizeFirstOrd q m.orderId m.size) = [] := by
                    rw [hnil]; rfl
                  rw [qIds_setSizeFirstOrd] at hql
                  exact hwf.2.2.2.2.2.2 _ _ _ hlvl (List.map_eq_nil_iff.mp hql)
            · rw [if_neg hpx] at h
              injection h with h
              subst h
              have hrec : aFind b.ordsById m.orderId = some ⟨ps.price, m.side⟩ := by
                rw [hfind, ← hseq]
              exact Book.wf_moveOrd hnone hwf hlvl hrec (fun hh => hpx hh.symm) rfl
    · rw [if_neg hseq] at h
      exact Except.noConfusion h

theorem Book.wf_ProcSynthTrade {b b' : Book} {px : Int} {sz : Nat} {sd0 : Sd}
    (hwf : b.wf) (h : b.ProcSynthTrade px sz sd0 = .ok b') : b'.wf := by
  unfold Book.ProcSynthTrade at h
  by_cases hs : sd0 = Sd.None
  · rw [if_pos hs] at h
    exact Except.noConfusion h
  · rw [if_neg hs] at h
    rcases hlvl : smFind (b.sideGet sd0) px with _ | q
    · simp only [hlvl] at h
      injection h with h
      subst h
      exact hwf
    · simp only [hlvl] at h
      injection h with h
      subst h
      have hqm := hwf.2.2.2.2.1
      have hqn := hwf.2.2.2.2.2.1
      have hne := hwf.2.2.2.2.2.2
      have hqnodup : (qIds q).Nodup := hqn sd0 px q hlvl
      have hsplit : (consumeOrds q sz).2 ++ qIds (consumeOrds q sz).1 = qIds q :=
        consumeOrds_ids q sz
      set q2 : LvlOrdsInQ := (consumeOrds q sz).1 with hq2def
      set erased : List Nat := (consumeOrds q sz).2 with herdef
      have hnall : (erased ++ qIds q2).Nodup := by
        rw [hsplit]; exact hqnodup
      rw [List.nodup_append] at hnall
      obtain ⟨hndE, hndQ2, hdisj⟩ := hnall
      have hErasedIn : ∀ k, k ∈ erased → k ∈ qIds q := by
        intro k hk
        rw [← hsplit]
        exact List.mem_append_left _ hk
      have hQ2In : ∀ k, k ∈ qIds q2 → k ∈ qIds q := by
        intro k hk
        rw [← hsplit]
        exact List.mem_append_right _ hk
      have hErasedMem : ∀ k, k ∈ erased → aFind b.ordsById k = some ⟨px, sd0⟩ := by
        intro k hk
        exact hqm sd0 px q hlvl k (hErasedIn k hk)
      have hQ2Mem : ∀ k, k ∈ qIds q2 → aFind b.ordsById k = some ⟨px, sd0⟩ := by
        intro k hk
        exact hqm sd0 px q hlvl k (hQ2In k hk)
      have hQ2NotErased : ∀ k, k ∈ qIds q2 → k ∉ erased := by
        intro k hk hk'
        exact hdisj hk' hk
      set B : Book := { b.setSide sd0
          (if q2 = [] then smErase (b.sideGet sd0) px else smSet (b.sideGet sd0) px q2) with
        ordsById := erased.foldl aErase b.ordsById } with hB
      have hSide : ∀ sd, B.sideGet sd = (b.setSide sd0
          (if q2 = [] then smErase (b.sideGet sd0) px
           else smSet (b.sideGet sd0) px q2)).sideGet sd := by
        intro sd
        rw [hB, Book.sideGet_mk_ordsById]
      have hsmf : ∀ sd x, smFind (B.sideGet sd) x =
          if sd = sd0 ∧ x = px then (if q2 = [] then none else some q2)
          else smFind (b.sideGet sd) x := by
        intro sd x
        rw [hSide]
        by_cases hsd : sd = sd0
        · subst hsd
          rw [b.sideGet_setSide_self hs]
          by_cases hq2e : q2 = []
          · rw [if_pos hq2e, smFind_smErase]
            by_cases hx : x = px
            · rw [if_pos hx, if_pos ⟨rfl, hx⟩, if_pos hq2e]
            · rw [if_neg hx, if_neg (fun hc => hx hc.2)]
          · rw [if_neg hq2e]
            by_cases hx : x = px
            · subst hx
              rw [if_pos ⟨rfl, rfl⟩, if_neg hq2e, smFind_smSet_self]
            · rw [if_neg (fun hc => hx hc.2), smFind_smSet_ne _ _ _ hx]
        · rw [b.sideGet_setSide_other hsd, if_neg (fun hc => hsd hc.1)]
      have hFind : ∀ k, aFind B.ordsById k =
          if k ∈ erased then none else aFind b.ordsById k := by
        intro k
        rw [hB]
        show aFind (erased.foldl aErase b.ordsById) k = _
        rw [aFind_foldl_aErase]
      refine Book.wf_of_parts ?_ ?_ ?_ ?_ ?_ ?_
      · intro sd _
        rw [hSide]
        by_cases hsds : sd = sd0
        · subst hsds
          rw [b.sideGet_setSide_self hs]
          by_cases hq2e : q2 = []
          · rw [if_pos hq2e]
            exact smErase_keys_sorted _ (Book.wf_sorted_side hwf _)
          · rw [if_neg hq2e]
            exact smSet_sorted _ _ (Book.wf_sorted_side hwf _)
        · rw [b.sideGet_setSide_other hsds]
          exact Book.wf_sorted_side hwf sd
      · rw [hB]
        show ((erased.foldl aErase b.ordsById).map Prod.fst).Nodup
        exact foldl_aErase_keys_nodup _ hwf.2.2.1
      · intro k ps hk
        rw [hFind k] at hk
        by_cases hko : k ∈ erased
        · rw [if_pos hko] at hk
          exact Option.noConfusion hk
        · rw [if_neg hko] at hk
          obtain ⟨q0, hq0, hmem⟩ := hwf.2.2.2.1 k ps hk
          by_cases hcase : ps.side = sd0 ∧ ps.price = px
          · obtain ⟨hc1, hc2⟩ := hcase
            have hq0q : q0 = q := by
              rw [hc1, hc2] at hq0
              rw [hq0] at hlvl
              injection hlvl
            have hkq2 : k ∈ qIds q2 := by
              have hkq : k ∈ qIds q := hq0q ▸ hmem
              rw [← hsplit] at hkq
              rcases List.mem_append.mp hkq with hk2 | hk2
              · exact absurd hk2 hko
              · exact hk2
            have hq2ne : q2 ≠ [] := by
              intro hnil
              rw [hnil] at hkq2
              simp [qIds] at hkq2
            refine ⟨q2, ?_, hkq2⟩
            rw [hsmf, if_pos ⟨hc1, hc2⟩, if_neg hq2ne]
          · refine ⟨q0, ?_, hmem⟩
            rw [hsmf, if_neg hcase]
            exact hq0
      · intro sd x q'' hq'' k hkmem
        rw [hsmf] at hq''
        by_cases hcase : sd = sd0 ∧ x = px
        · rw [if_pos hcase] at hq''
          by_cases hq2e : q2 = []
          · rw [if_pos hq2e] at hq''
            exact Option.noConfusion hq''
          · rw [if_neg hq2e] at hq''
            injection hq'' with hq''
            subst hq''
            obtain ⟨rfl, rfl⟩ := hcase
            rw [hFind k, if_neg (hQ2NotErased k hkmem)]
            exact hQ2Mem k hkmem
        · rw [if_neg hcase] at hq''
          have hfk := hqm sd x q'' hq'' k hkmem
          have hkne : k ∉ erased := by
            intro hkeq
            have := hErasedMem k hkeq
            rw [hfk] at this
            injection this with this
            rw [PxAndSd.mk.injEq] at this
            exact hcase ⟨this.2, this.1⟩
          rw [hFind k, if_neg hkne]
          exact hfk
      · intro sd x q'' hq''
        rw [hsmf] at hq''
        by_cases hcase : sd = sd0 ∧ x = px
        · rw [if_pos hcase] at hq''
          by_cases hq2e : q2 = []
          · rw [if_pos hq2e] at hq''
            exact Option.noConfusion hq''
          · rw [if_neg hq2e] at hq''
            injection hq'' with hq''
            subst hq''
            exact hndQ2
        · rw [if_neg hcase] at hq''
          exact hqn sd x q'' hq''
      · intro sd x q'' hq''
        rw [hsmf] at hq''
        by_cases hcase : sd = sd0 ∧ x = px
        · rw [if_pos hcase] at hq''
          by_cases hq2e : q2 = []
          · rw [if_pos hq2e] at hq''
            exact Option.noConfusion hq''
          · rw [if_neg hq2e] at hq''
            injection hq'' with hq''
            subst hq''
            exact hq2e
        · rw [if_neg hcase] at hq''
          exact hne sd x q'' hq''

theorem Book.wf_Apply {b b' : Book} {m : MboSingle} (hwf : b.wf) (h : b.Apply m = .ok b') :
    b'.wf := by
  unfold Book.Apply at h
  rcases hact : m.action
  · simp only [hact] at h
    exact Book.wf_Add hwf h
  · simp only [hact] at h
    exact Book.wf_Cancel hwf h
  · simp only [hact] at h
    exact Book.wf_Modify hwf h
  · simp only [hact] at h
    injection h with h
    subst h
    exact Book.wf_empty
  · simp only [hact] at h
    injection h with h
    subst h
    exact hwf
  · simp only [hact] at h
    injection h with h
    subst h
    exact hwf
  · simp only [hact] at h
    injection h with h
    subst h
    exact hwf

theorem Book.reachable_wf {b : Book} (h : b.Reachable) : b.wf := by
  induction h with
  | empty => exact Book.wf_empty
  | applyStep hr hstep ih => exact Book.wf_Apply ih hstep
  | synthStep hr hstep ih => exact Book.wf_ProcSynthTrade ih hstep

/-- A sample Add message used by concrete witnesses. -/
def wAdd : MboSingle :=
  ⟨"t0", "t1", 160, 1, 5, Act.Add, Sd.Bid, 100, 7, 0, 42, 0, 0, 1, "SYM"⟩

/-- The book produced by applying `wAdd` to the empty book. -/
def wBook : Book := ⟨[(42, ⟨100, Sd.Bid⟩)], [], [(100, [wAdd])]⟩

/-- C3: for every Book and every reachable state (no fatal fault having
occurred), the set of order ids in the id index equals the set of order ids
present across the bid and ask level queues, and each index record's
`(price, side)` names exactly the queue the order rests in; this is preserved
by Add, Cancel, Modify, Clear and process_synthetic_trade, which are the
steps of reachability. -/
theorem C3_idx_consistency (b : Book) (h : b.Reachable) :
    (∀ oid, (∃ ps, aFind b.ordsById oid = some ps) ↔
      (∃ sd px q, smFind (b.sideGet sd) px = some q ∧ oid ∈ qIds q)) ∧
    b.idxMatches ∧ b.queuesMatch := by
  have hwf := Book.reachable_wf h
  refine ⟨?_, hwf.2.2.2.1, hwf.2.2.2.2.1⟩
  intro oid
  constructor
  · rintro ⟨ps, hps⟩
    obtain ⟨q, hq, hmem⟩ := hwf.2.2.2.1 oid ps hps
    exact ⟨ps.side, ps.price, q, hq, hmem⟩
  · rintro ⟨sd, px, q, hq, hmem⟩
    exact ⟨_, hwf.2.2.2.2.1 sd px q hq oid hmem⟩

/-- Witness for C3 at a concrete nonempty reachable book. -/
theorem C3_witness :
    Book.Reachable wBook ∧
    ((∀ oid, (∃ ps, aFind wBook.ordsById oid = some ps) ↔
      (∃ sd px q, smFind (wBook.sideGet sd) px = some q ∧ oid ∈ qIds q)) ∧
    wBook.idxMatches ∧ wBook.queuesMatch) := by
  have hstep : Book.emptyBook.Apply wAdd = .ok wBook := by rfl
  have hr : Book.Reachable wBook := Book.Reachable.applyStep Book.Reachable.empty hstep
  exact ⟨hr, C3_idx_consistency wBook hr⟩

/-- Zero-based position of a key in a list, 0 when absent; formalizes the
spec's "index (0-based, best-first)". -/
def idxIn (p : Int) : List Int → Nat
  | [] => 0
  | k :: rest => if k = p then 0 else idxIn p rest + 1

theorem bidDepthAux_mem (l : List (Int × LvlOrdsInQ)) (p : Int)
    (hsort : List.Sorted (· > ·) (l.map Prod.fst)) (hmem : p ∈ l.map Prod.fst)
    (d : Nat) : bidDepthAux l p d = d + idxIn p (l.map Prod.fst) := by
  induction l generalizing d with
  | nil => simp at hmem
  | cons pr rest ih =>
    obtain ⟨pk, pw⟩ := pr
    rw [List.map_cons] at hsort hmem
    rw [List.sorted_cons] at hsort
    by_cases hk : pk = p
    · simp [bidDepthAux, hk, idxIn, List.map_cons]
    · have hp_rest : p ∈ rest.map Prod.fst := by
        rcases List.mem_cons.mp hmem with hmm | hmm
        · exact absurd hmm.symm hk
        · exact hmm
      have hgt : pk > p := hsort.1 p hp_rest
      have hnlt : ¬ pk < p := by omega
      rw [show bidDepthAux ((pk, pw) :: rest) p d = bidDepthAux rest p (d + 1) from by
        simp [bidDepthAux, hk, hnlt]]
      rw [ih hsort.2 hp_rest (d + 1)]
      rw [List.map_cons]
      simp [idxIn, hk]
      omega

theorem bidDepthAux_not_mem (l : List (Int × LvlOrdsInQ)) (p : Int)
    (hmem : p ∉ l.map Prod.fst) (d : Nat) : bidDepthAux l p d = 0 := by
  induction l generalizing d with
  | nil => rfl
  | cons pr rest ih =>
    obtain ⟨pk, pw⟩ := pr
    rw [List.map_cons, List.mem_cons] at hmem
    push_neg at hmem
    have hne : ¬ pk = p := fun hh => hmem.1 hh.symm
    by_cases hlt : pk < p
    · simp [bidDepthAux, hne, hlt]
    · rw [show bidDepthAux ((pk, pw) :: rest) p d = bidDepthAux rest p (d + 1) from by
        simp [bidDepthAux, hne, hlt]]
      exact ih hmem.2 (d + 1)

theorem askDepthAux_mem (l : List (Int × LvlOrdsInQ)) (p : Int)
    (hsort : List.Sorted (· < ·) (l.map Prod.fst)) (hmem : p ∈ l.map Prod.fst)
    (d : Nat) : askDepthAux l p d = d + idxIn p (l.map Prod.fst) := by
  induction l generalizing d with
  | nil => simp at hmem
  | cons pr rest ih =>
    obtain ⟨pk, pw⟩ := pr
    rw [List.map_cons] at hsort hmem
    rw [List.sorted_cons] at hsort
    by_cases hk : pk = p
    · have hnlt : ¬ pk < p := by omega
      simp [askDepthAux, hk, hnlt, idxIn, List.map_cons]
    · have hp_rest : p ∈ rest.map Prod.fst := by
        rcases List.mem_cons.mp hmem with hmm | hmm
        · exact absurd hmm.symm hk
        · exact hmm
      have hlt : pk < p := hsort.1 p hp_rest
      rw [show askDepthAux ((pk, pw) :: rest) p d = askDepthAux rest p (d + 1) from by
        simp [askDepthAux, hlt]]
      rw [ih hsort.2 hp_rest (d + 1)]
      rw [List.map_cons]
      simp [idxIn, hk]
      omega

theorem askDepthAux_not_mem (l : List (Int × LvlOrdsInQ)) (p : Int)
    (hmem : p ∉ l.map Prod.fst) (d : Nat) : askDepthAux l p d = 0 := by
  induction l generalizing d with
  | nil => rfl
  | cons pr rest ih =>
    obtain ⟨pk, pw⟩ := pr
    rw [List.map_cons, List.mem_cons] at hmem
    push_neg at hmem
    have hne : ¬ pk = p := fun hh => hmem.1 hh.symm
    by_cases hlt : pk < p
    · rw [show askDepthAux ((pk, pw) :: rest) p d = askDepthAux rest p (d + 1) from by
        simp [askDepthAux, hlt]]
      exact ih hmem.2 (d + 1)
    · simp [askDepthAux, hlt, hne]

/-- C5: `GetBidLevelDepth` returns the zero-based best-first (largest price
first) index of the bid level priced `p`, and 0 when no bid level has price
`p`; `GetAskLevelDepth` symmetrically returns the zero-based index from the
lowest ask, and 0 when absent.  The sortedness hypotheses are the `std::map`
representation invariant. -/
theorem C5_level_depth (b : Book) (p : Int)
    (hb : List.Sorted (· < ·) (b.bids.map Prod.fst))
    (ho : List.Sorted (· < ·) (b.offers.map Prod.fst)) :
    ((p ∈ b.bids.map Prod.fst →
        b.GetBidLevelDepth p = idxIn p ((b.bids.map Prod.fst).reverse)) ∧
     (p ∉ b.bids.map Prod.fst → b.GetBidLevelDepth p = 0)) ∧
    ((p ∈ b.offers.map Prod.fst →
        b.GetAskLevelDepth p = idxIn p (b.offers.map Prod.fst)) ∧
     (p ∉ b.offers.map Prod.fst → b.GetAskLevelDepth p = 0)) := by
  have hrevkeys : b.bids.reverse.map Prod.fst = (b.bids.map Prod.fst).reverse :=
    List.map_reverse _ _
  refine ⟨⟨?_, ?_⟩, ⟨?_, ?_⟩⟩
  · intro hmem
    unfold Book.GetBidLevelDepth
    rw [bidDepthAux_mem b.bids.reverse p ?_ ?_ 0]
    · rw [hrevkeys, Nat.zero_add]
    · rw [hrevkeys]
      rw [List.Sorted, List.pairwise_reverse]
      exact hb
    · rw [hrevkeys]
      exact List.mem_reverse.mpr hmem
  · intro hmem
    unfold Book.GetBidLevelDepth
    apply bidDepthAux_not_mem
    rw [hrevkeys]
    exact fun hc => hmem (List.mem_reverse.mp hc)
  · intro hmem
    unfold Book.GetAskLevelDepth
    rw [askDepthAux_mem b.offers p ho hmem 0, Nat.zero_add]
  · intro hmem
    unfold Book.GetAskLevelDepth
    exact askDepthAux_not_mem b.offers p hmem 0

/-- A small two-level-per-side book used as a depth-query witness. -/
def wDepthBook : Book :=
  ⟨[], [(5, [wAdd]), (7, [wAdd])], [(1, [wAdd]), (3, [wAdd])]⟩

/-- Witness for C5 at a concrete book and price. -/
theorem C5_witness :
    List.Sorted (· < ·) (wDepthBook.bids.map Prod.fst) ∧
    List.Sorted (· < ·) (wDepthBook.offers.map Prod.fst) ∧
    ((((3:Int) ∈ wDepthBook.bids.map Prod.fst →
        wDepthBook.GetBidLevelDepth 3 = idxIn 3 ((wDepthBook.bids.map Prod.fst).reverse)) ∧
      ((3:Int) ∉ wDepthBook.bids.map Prod.fst → wDepthBook.GetBidLevelDepth 3 = 0)) ∧
     (((3:Int) ∈ wDepthBook.offers.map Prod.fst →
        wDepthBook.GetAskLevelDepth 3 = idxIn 3 (wDepthBook.offers.map Prod.fst)) ∧
      ((3:Int) ∉ wDepthBook.offers.map Prod.fst → wDepthBook.GetAskLevelDepth 3 = 0))) := by
  refine ⟨by decide, by decide, C5_level_depth wDepthBook 3 (by decide) (by decide)⟩

theorem smFind_setSide (b : Book) {s : Sd} (hs : s ≠ Sd.None) (lv : LvlOrds)
    (sd : Sd) (x : Int) :
    smFind ((b.setSide s lv).sideGet sd) x =
      if sd = s then smFind lv x else smFind (b.sideGet sd) x := by
  by_cases hsd : sd = s
  · subst hsd
    rw [b.sideGet_setSide_self hs, if_pos rfl]
  · rw [b.sideGet_setSide_other hsd, if_neg hsd]

theorem setSizeFirstOrd_ne_nil {q : LvlOrdsInQ} (h : q ≠ []) (oid sz : Nat) :
    setSizeFirstOrd q oid sz ≠ [] := by
  cases q with
  | nil => exact absurd rfl h
  | cons o rest =>
    by_cases hh : o.orderId = oid <;> simp [setSizeFirstOrd, hh]

/-- Every resting entry has positive size and no level queue is empty: the
invariant claimed by the spec for books at rest. -/
def Book.entriesOk (b : Book) : Prop :=
  ∀ sd px q, smFind (b.sideGet sd) px = some q → q ≠ [] ∧ ∀ o ∈ q, 0 < o.size

theorem entriesOk_empty : Book.emptyBook.entriesOk := by
  intro sd px q h
  cases sd <;> simp [Book.sideGet, Book.emptyBook, smFind] at h

theorem entriesOk_Add {b b' : Book} {m : MboSingle} (hok : b.entriesOk)
    (hm : 0 < m.size) (h : b.Add m = .ok b') : b'.entriesOk := by
  obtain ⟨hs, hid, hb'⟩ := Book.Add_ok_shape h
  intro sd px q'' hq''
  rw [hb', Book.sideGet_mk_ordsById, smFind_setSide _ hs] at hq''
  by_cases hsd : sd = m.side
  · rw [if_pos hsd] at hq''
    by_cases hpx : px = m.price
    · rw [hpx, smFind_smSet_self] at hq''
      injection hq'' with hq''
      subst hq''
      refine ⟨by simp, ?_⟩
      intro o ho
      rcases List.mem_append.mp ho with ho | ho
      · rcases h0 : smFind (b.sideGet m.side) m.price with _ | q0
        · rw [h0] at ho; simp at ho
        · rw [h0] at ho
          exact (hok m.side m.price q0 h0).2 o (by simpa using ho)
      · rw [List.mem_singleton] at ho
        subst ho
        exact hm
    · rw [smFind_smSet_ne _ _ _ hpx] at hq''
      exact hok m.side px q'' hq''
  · rw [if_neg hsd] at hq''
    exact hok sd px q'' hq''

theorem entriesOk_Cancel {b b' : Book} {m : MboSingle} (hok : b.entriesOk)
    (h : b.Cancel m = .ok b') : b'.entriesOk := by
  unfold Book.Cancel at h
  rcases hfind : aFind b.ordsById m.orderId with _ | ps
  · simp only [hfind] at h
    injection h with h
    subst h
    exact hok
  · simp only [hfind] at h
    by_cases hside : ps.side = Sd.None
    · rw [if_pos hside] at h
      exact Except.noConfusion h
    · rw [if_neg hside] at h
      rcases hlvl : smFind (b.sideGet ps.side) ps.price with _ | q
      · simp only [hlvl] at h
        exact Except.noConfusion h
      · simp only [hlvl] at h
        rcases hord : findOrd q m.orderId with _ | o
        · simp only [hord] at h
          injection h with h
          subst h
          exact hok
        · simp only [hord] at h
          by_cases hz : (if o.size < m.size then 0 else o.size - m.size) = 0
          · rw [if_pos hz] at h
            injection h with h
            subst h
            intro sd px q'' hq''
            rw [Book.sideGet_mk_ordsById, smFind_setSide _ hside] at hq''
            by_cases hsd : sd = ps.side
            · rw [if_pos hsd] at hq''
              by_cases hq2e : eraseFirstOrd q m.orderId = []
              · rw [if_pos hq2e, smFind_smErase] at hq''
                by_cases hpx : px = ps.price
                · rw [if_pos hpx] at hq''
                  exact Option.noConfusion hq''
                · rw [if_neg hpx] at hq''
                  exact hok ps.side px q'' hq''
              · rw [if_neg hq2e] at hq''
                by_cases hpx : px = ps.price
                · rw [hpx, smFind_smSet_self] at hq''
                  injection hq'' with hq''
                  subst hq''
                  refine ⟨hq2e, ?_⟩
                  intro o' ho'
                  exact (hok ps.side ps.price q hlvl).2 o' (mem_of_mem_eraseFirstOrd ho')
                · rw [smFind_smSet_ne _ _ _ hpx] at hq''
                  exact hok ps.side px q'' hq''
            · rw [if_neg hsd] at hq''
              exact hok sd px q'' hq''
          · rw [if_neg hz] at h
            injection h with h
            subst h
            intro sd px q'' hq''
            rw [smFind_setSide _ hside] at hq''
            by_cases hsd : sd = ps.side
            · rw [if_pos hsd] at hq''
              by_cases hpx : px = ps.price
              · rw [hpx, smFind_smSet_self] at hq''
                injection hq'' with hq''
                subst hq''
                refine ⟨setSizeFirstOrd_ne_nil (hok ps.side ps.price q hlvl).1 _ _, ?_⟩
                intro o' ho'
                rcases mem_setSizeFirstOrd ho' with ho' | ⟨w, hw, hweq⟩
                · exact (hok ps.side ps.price q hlvl).2 o' ho'
                · rw [hweq]
                  show 0 < (if o.size < m.size then 0 else o.size - m.size)
                  omega
              · rw [smFind_smSet_ne _ _ _ hpx] at hq''
                exact hok ps.side px q'' hq''
            · rw [if_neg hsd] at hq''
              exact hok sd px q'' hq''

theorem entriesOk_Modify {b b' : Book} {m : MboSingle} (hok : b.entriesOk)
    (hm : 0 < m.size) (h : b.Modify m = .ok b') : b'.entriesOk := by
  unfold Book.Modify at h
  rcases hfind : aFind b.ordsById m.orderId with _ | ps
  · simp only [hfind] at h
    exact entriesOk_Add hok hm h
  · simp only [hfind] at h
    by_cases hseq : ps.side = m.side
    · rw [if_pos hseq] at h
      by_cases hnone : m.side = Sd.None
      · rw [if_pos hnone] at h
        exact Except.noConfusion h
      · rw [if_neg hnone] at h
        rcases hlvl : smFind (b.sideGet m.side) ps.price with _ | q
        · simp only [hlvl] at h
          exact Except.noConfusion h
        · simp only [hlvl] at h
          rcases hord : findOrd q m.orderId with _ | o
          · simp only [hord] at h
            injection h with h
            subst h
            exact hok
          · simp only [hord] at h
            by_cases hpx0 : ps.price = m.price
            · rw [if_pos hpx0] at h
              by_cases hsz : o.size < m.size
              · rw [if_pos hsz] at h
                injection h with h
                subst h
                intro sd px q'' hq''
                rw [smFind_setSide _ hnone] at hq''
                by_cases hsd : sd = m.side
                · rw [if_pos hsd] at hq''
                  by_cases hpx : px = m.price
                  · rw [hpx, smFind_smSet_self] at hq''
                    injection hq'' with hq''
                    subst hq''
                    refine ⟨by simp, ?_⟩
                    intro o' ho'
                    rcases List.mem_append.mp ho' with ho' | ho'
                    · exact (hok m.side ps.price q hlvl).2 o' (mem_of_mem_eraseFirstOrd ho')
                    · rw [List.mem_singleton] at ho'
                      subst ho'
                      exact hm
                  · rw [smFind_smSet_ne _ _ _ hpx] at hq''
                    exact hok m.side px q'' hq''
                · rw [if_neg hsd] at hq''
                  exact hok sd px q'' hq''
              · rw [if_neg hsz] at h
                injection h with h
                subst h
                intro sd px q'' hq''
                rw [smFind_setSide _ hnone] at hq''
                by_cases hsd : sd = m.side
                · rw [if_pos hsd] at hq''
                  by_cases hpx : px = m.price
                  · rw [hpx, smFind_smSet_self] at hq''
                    injection hq'' with hq''
                    subst hq''
                    refine ⟨setSizeFirstOrd_ne_nil (hok m.side ps.price q hlvl).1 _ _, ?_⟩
                    intro o' ho'
                    rcases mem_setSizeFirstOrd ho' with ho' | ⟨w, hw, hweq⟩
                    · exact (hok m.side ps.price q hlvl).2 o' ho'
                    · rw [hweq]
                      exact hm
                  · rw [smFind_smSet_ne _ _ _ hpx] at hq''
                    exact hok m.side px q'' hq''
                · rw [if_neg hsd] at hq''
                  exact hok sd px q'' hq''
            · rw [if_neg hpx0] at h
              injection h with h
              subst h
              intro sd px q'' hq''
              rw [Book.sideGet_mk_ordsById, smFind_setSide _ hnone] at hq''
              by_cases hsd : sd = m.side
              · rw [if_pos hsd] at hq''
                by_cases hpx : px = m.price
                · rw [hpx, smFind_smSet_self] at hq''
                  injection hq'' with hq''
                  subst hq''
                  refine ⟨by simp, ?_⟩
                  intro o' ho'
                  rcases List.mem_append.mp ho' with ho' | ho'
                  · by_cases hq2e : eraseFirstOrd q m.orderId = []
                    · rw [if_pos hq2e, smFind_smErase] at ho'
                      rcases h0 : smFind (b.sideGet m.side) m.price with _ | q0
                      · rw [if_neg (fun hc : m.price = ps.price => hpx0 hc.symm), h0] at ho'
                        simp at ho'
                      · rw [if_neg (fun hc : m.price = ps.price => hpx0 hc.symm), h0] at ho'
                        exact (hok m.side m.price q0 h0).2 o' (by simpa using ho')
                    · rw [if_neg hq2e,
                        smFind_smSet_ne _ _ _ (fun hc : m.price = ps.price => hpx0 hc.symm)] at ho'
                      rcases h0 : smFind (b.sideGet m.side) m.price with _ | q0
                      · rw [h0] at ho'
                        simp at ho'
                      · rw [h0] at ho'
                        exact (hok m.side m.price q0 h0).2 o' (by simpa using ho')
                  · rw [List.mem_singleton] at ho'
                    subst ho'
                    exact hm
                · rw [smFind_smSet_ne _ _ _ hpx] at hq''
                  by_cases hq2e : eraseFirstOrd q m.orderId = []
                  · rw [if_pos hq2e, smFind_smErase] at hq''
                    by_cases hpx2 : px = ps.price
                    · rw [if_pos hpx2] at hq''
                      exact Option.noConfusion hq''
                    · rw [if_neg hpx2] at hq''
                      exact hok m.side px q'' hq''
                  · rw [if_neg hq2e] at hq''
                    by_cases hpx2 : px = ps.price
                    · rw [hpx2, smFind_smSet_self] at hq''
                      injection hq'' with hq''
                      subst hq''
                      refine ⟨hq2e, ?_⟩
                      intro o' ho'
                      exact (hok m.side ps.price q hlvl).2 o' (mem_of_mem_eraseFirstOrd ho')
                    · rw [smFind_smSet_ne _ _ _ hpx2] at hq''
                      exact hok m.side px q'' hq''
              · rw [if_neg hsd] at hq''
                exact hok sd px q'' hq''
    · rw [if_neg hseq] at h
      exact Except.noConfusion h

theorem entriesOk_ProcSynthTrade {b b' : Book} {px0 : Int} {sz : Nat} {sd0 : Sd}
    (hok : b.entriesOk) (h : b.ProcSynthTrade px0 sz sd0 = .ok b') : b'.entriesOk := by
  unfold Book.ProcSynthTrade at h
  by_cases hs : sd0 = Sd.None
  · rw [if_pos hs] at h
    exact Except.noConfusion h
  · rw [if_neg hs] at h
    rcases hlvl : smFind (b.sideGet sd0) px0 with _ | q
    · simp only [hlvl] at h
      injection h with h
      subst h
      exact hok
    · simp only [hlvl] at h
      injection h with h
      subst h
      intro sd px q'' hq''
      rw [Book.sideGet_mk_ordsById, smFind_setSide _ hs] at hq''
      by_cases hsd : sd = sd0
      · rw [if_pos hsd] at hq''
        by_cases hq2e : (consumeOrds q sz).1 = []
        · rw [if_pos hq2e, smFind_smErase] at hq''
          by_cases hpx : px = px0
          · rw [if_pos hpx] at hq''
            exact Option.noConfusion hq''
          · rw [if_neg hpx] at hq''
            exact hok sd0 px q'' hq''
        · rw [if_neg hq2e] at hq''
          by_cases hpx : px = px0
          · rw [hpx, smFind_smSet_self] at hq''
            injection hq'' with hq''
            subst hq''
            exact ⟨hq2e, consumeOrds_pos (hok sd0 px0 q hlvl).2 sz⟩
          · rw [smFind_smSet_ne _ _ _ hpx] at hq''
            exact hok sd0 px q'' hq''
      · rw [if_neg hsd] at hq''
        exact hok sd px q'' hq''

/-- Add of order 1, Bid, price 100, size 5. -/
def c1Add : MboSingle := ⟨"", "", 160, 1, 1, Act.Add, Sd.Bid, 100, 5, 0, 1, 0, 0, 0, ""⟩

/-- Modify of order 1 at the same price carrying size 0. -/
def c1Mod : MboSingle := ⟨"", "", 160, 1, 1, Act.Modify, Sd.Bid, 100, 0, 0, 1, 0, 0, 0, ""⟩

/-- The book left behind by `c1Add` then `c1Mod`: a zero-size entry rests. -/
def c1Bad : Book := ⟨[(1, ⟨100, Sd.Bid⟩)], [], [(100, [{ c1Add with size := 0 }])]⟩

/-- The book after `c1Add` alone. -/
def c1Good : Book := ⟨[(1, ⟨100, Sd.Bid⟩)], [], [(100, [c1Add])]⟩

/-- C1 counterexample: applying Add(id 1, Bid, 100, size 5) and then
Modify(id 1, Bid, 100, size 0) succeeds and leaves an entry of size 0 resting
in the bid queue at price 100, still recorded in the id index — the code's
`ordIt->size = m.size` path performs no delete-on-zero, so the claimed
invariant `size > 0 at rest` fails, in particular for a Modify carrying
size 0. -/
theorem C1_counterexample :
    (Book.emptyBook.Apply c1Add).bind (fun b1 => b1.Apply c1Mod) = Except.ok c1Bad ∧
    smFind (c1Bad.sideGet Sd.Bid) 100 = some [{ c1Add with size := 0 }] ∧
    ({ c1Add with size := 0 } : MboSingle).size = 0 ∧
    aFind c1Bad.ordsById 1 = some ⟨100, Sd.Bid⟩ ∧
    ¬ c1Bad.entriesOk := by
  refine ⟨rfl, by decide, rfl, by decide, ?_⟩
  intro hok
  have hsz := (hok Sd.Bid 100 [{ c1Add with size := 0 }] (by decide)).2 _
    (List.mem_singleton_self _)
  exact absurd hsz (by decide)

/-- C1 (amended): provided every Add and Modify event carries a strictly
positive size, after every successfully applied event and after every
synthetic trade, every entry resting in any level queue has size strictly
greater than 0 and no empty level is present (transitions to size 0 through
Cancel or a synthetic trade delete the entry, and the level when it empties).
The proviso is forced by the counterexample: a Modify carrying size 0 at an
unchanged price stores the 0 in place and deletes nothing. -/
theorem C1_amended :
    (∀ (b b' : Book) (m : MboSingle), b.entriesOk →
      ((m.action = Act.Add ∨ m.action = Act.Modify) → 0 < m.size) →
      b.Apply m = .ok b' → b'.entriesOk) ∧
    (∀ (b b' : Book) (px : Int) (sz : Nat) (sd : Sd), b.entriesOk →
      b.ProcSynthTrade px sz sd = .ok b' → b'.entriesOk) := by
  constructor
  · intro b b' m hok hm h
    unfold Book.Apply at h
    rcases hact : m.action
    · simp only [hact] at h
      exact entriesOk_Add hok (hm (Or.inl hact)) h
    · simp only [hact] at h
      exact entriesOk_Cancel hok h
    · simp only [hact] at h
      exact entriesOk_Modify hok (hm (Or.inr hact)) h
    · simp only [hact] at h
      injection h with h
      subst h
      exact entriesOk_empty
    · simp only [hact] at h
      injection h with h
      subst h
      exact hok
    · simp only [hact] at h
      injection h with h
      subst h
      exact hok
    · simp only [hact] at h
      injection h with h
      subst h
      exact hok
  · intro b b' px sz sd hok h
    exact entriesOk_ProcSynthTrade hok h

/-- Witness for the amended C1 at a concrete event. -/
theorem C1_witness :
    Book.emptyBook.Apply c1Add = Except.ok c1Good ∧ c1Good.entriesOk :=
  ⟨rfl,
   C1_amended.1 Book.emptyBook c1Good c1Add entriesOk_empty (fun _ => by decide) rfl⟩

/-- C6: for a Modify on a known order id whose price equals the recorded
price, a new size strictly greater than the entry's current remaining size
re-queues the entry (re-emitted as the Modify message, same order id, new
size) at the tail of its level queue, while a new size less than or equal to
the current remaining size updates the entry's size in place, keeping its
queue position. -/
theorem C6_modify_same_price (b : Book) (m : MboSingle) (ps : PxAndSd)
    (q : LvlOrdsInQ) (o : MboSingle)
    (hfind : aFind b.ordsById m.orderId = some ps)
    (hside : ps.side = m.side)
    (hprice : ps.price = m.price)
    (hlvl : smFind (b.sideGet m.side) ps.price = some q)
    (hord : findOrd q m.orderId = some o) :
    (o.size < m.size →
      b.Modify m = .ok (b.setSide m.side (smSet (b.sideGet m.side) m.price
        (eraseFirstOrd q m.orderId ++ [m])))) ∧
    (m.size ≤ o.size →
      b.Modify m = .ok (b.setSide m.side (smSet (b.sideGet m.side) m.price
        (setSizeFirstOrd q m.orderId m.size)))) := by
  have hnone : m.side ≠ Sd.None := by
    intro hn
    rw [hn] at hlvl
    simp [Book.sideGet, smFind] at hlvl
  constructor
  · intro hsz
    unfold Book.Modify
    simp only [hfind, if_pos hside, if_neg hnone, hlvl, hord, if_pos hprice, if_pos hsz]
  · intro hsz
    have hsz' : ¬ o.size < m.size := by omega
    unfold Book.Modify
    simp only [hfind, if_pos hside, if_neg hnone, hlvl, hord, if_pos hprice, if_neg hsz']

/-- A size-raising Modify of order 1 at the unchanged price 100. -/
def c6Up : MboSingle := ⟨"", "", 160, 1, 1, Act.Modify, Sd.Bid, 100, 9, 0, 1, 0, 0, 0, ""⟩

/-- Witness for C6 at a concrete book and Modify message. -/
theorem C6_witness :
    (c1Add.size < c6Up.size →
      c1Good.Modify c6Up = .ok (c1Good.setSide c6Up.side
        (smSet (c1Good.sideGet c6Up.side) c6Up.price
          (eraseFirstOrd [c1Add] c6Up.orderId ++ [c6Up])))) ∧
    (c6Up.size ≤ c1Add.size →
      c1Good.Modify c6Up = .ok (c1Good.setSide c6Up.side
        (smSet (c1Good.sideGet c6Up.side) c6Up.price
          (setSizeFirstOrd [c1Add] c6Up.orderId c6Up.size)))) :=
  C6_modify_same_price c1Good c6Up ⟨100, Sd.Bid⟩ [c1Add] c1Add
    (by decide) (by decide) (by decide) (by decide) (by decide)

/-- The book `Market::Apply` routes to, with `operator[]` default-construction. -/
def Market.bookAt (mk : Market) (instrId pubId : Nat) : Book :=
  (aFind ((aFind mk.books instrId).getD []) pubId).getD Book.emptyBook

theorem Book.Add_dupe_error {b : Book} {m : MboSingle} {ps : PxAndSd}
    (h : aFind b.ordsById m.orderId = some ps) : ∃ e, b.Add m = .error e := by
  unfold Book.Add
  by_cases hs : m.side = Sd.None
  · exact ⟨_, by rw [if_pos hs]⟩
  · rw [if_neg hs]
    simp only [h]
    exact ⟨_, rfl⟩

theorem Book.Modify_side_error {b : Book} {m : MboSingle} {ps : PxAndSd}
    (h : aFind b.ordsById m.orderId = some ps) (hsd : ps.side ≠ m.side) :
    ∃ e, b.Modify m = .error e := by
  unfold Book.Modify
  simp only [h, if_neg hsd]
  exact ⟨_, rfl⟩

theorem Market.Apply_error {mk : Market} {m : MboSingle} {e : String}
    (h : (mk.bookAt m.instrId m.pubId).Apply m = .error e) :
    mk.Apply m = .error e := by
  unfold Market.Apply
  unfold Market.bookAt at h
  show (((aFind ((aFind mk.books m.instrId).getD []) m.pubId).getD Book.emptyBook).Apply m).bind
      (fun bk2 => Except.ok (Market.mk (aStore mk.books m.instrId
        (aStore ((aFind mk.books m.instrId).getD []) m.pubId bk2)))) = Except.error e
  rw [h]
  rfl

theorem driverStep_apply_error {mk : Market} {pend : PendingTFs} {m : MboSingle}
    {e : String} (hact : m.action = Act.Add ∨ m.action = Act.Modify)
    (herr : mk.Apply m = .error e) : driverStep mk pend m = .error e := by
  unfold driverStep
  have h1 : ¬ (m.action = Act.Trade ∧ m.side = Sd.None) := by
    rcases hact with h | h <;> simp [h]
  have h2 : ¬ (m.action = Act.Trade ∨ m.action = Act.Fill) := by
    rcases hact with h | h <;> simp [h]
  have h3 : ¬ (m.action = Act.Cancel) := by
    rcases hact with h | h <;> simp [h]
  rw [if_neg h1, if_neg h2, if_neg h3, herr]
  rfl

/-- C7: a duplicate Add for an order id live in the target book, and a Modify
whose side differs from the recorded side, make the book operation return an
error that the sequencer and driver do not catch: the whole driver step is an
error (processing aborts) rather than continuing with a warning. -/
theorem C7_fatal_faults :
    (∀ (mk : Market) (pend : PendingTFs) (m : MboSingle) (ps : PxAndSd),
      m.action = Act.Add →
      aFind (mk.bookAt m.instrId m.pubId).ordsById m.orderId = some ps →
      ∃ e, driverStep mk pend m = .error e) ∧
    (∀ (mk : Market) (pend : PendingTFs) (m : MboSingle) (ps : PxAndSd),
      m.action = Act.Modify →
      aFind (mk.bookAt m.instrId m.pubId).ordsById m.orderId = some ps →
      ps.side ≠ m.side →
      ∃ e, driverStep mk pend m = .error e) := by
  constructor
  · intro mk pend m ps hact hdup
    obtain ⟨e, he⟩ := Book.Add_dupe_error hdup
    refine ⟨e, driverStep_apply_error (Or.inl hact) (Market.Apply_error ?_)⟩
    unfold Book.Apply
    rw [hact]
    exact he
  · intro mk pend m ps hact hdup hsd
    obtain ⟨e, he⟩ := Book.Modify_side_error hdup hsd
    refine ⟨e, driverStep_apply_error (Or.inr hact) (Market.Apply_error ?_)⟩
    unfold Book.Apply
    rw [hact]
    exact he

/-- A duplicate Add for the live order id 42 of `wBook`. -/
def c7Dup : MboSingle := ⟨"", "", 160, 1, 5, Act.Add, Sd.Bid, 101, 2, 0, 42, 0, 0, 2, ""⟩

/-- The market holding `wBook` for instrument 5, publisher 1. -/
def wMarket : Market := ⟨[(5, [(1, wBook)])]⟩

/-- Witness for C7 at a concrete duplicate Add. -/
theorem C7_witness : ∃ e, driverStep wMarket [] c7Dup = .error e :=
  C7_fatal_faults.1 wMarket [] c7Dup ⟨100, Sd.Bid⟩ rfl (by decide)

/-- C8: an event with action Trade and side None produces a row with depth 0
and changes neither the market nor the pending Trade/Fill map; the event is
not stored under its order id. -/
theorem C8_trade_none_frame (mk : Market) (pend : PendingTFs) (m : MboSingle)
    (h1 : m.action = Act.Trade) (h2 : m.side = Sd.None) :
    driverStep mk pend m = .ok ⟨mk, pend, 0,
      mk.GetAggBidLvls m.instrId 10, mk.GetAggAskLvls m.instrId 10⟩ := by
  unfold driverStep
  rw [if_pos ⟨h1, h2⟩]

/-- A Trade event with side None. -/
def c8Trade : MboSingle := ⟨"", "", 160, 1, 5, Act.Trade, Sd.None, 100, 3, 0, 99, 0, 0, 3, ""⟩

/-- Witness for C8 at a concrete Trade/None event on a nonempty market. -/
theorem C8_witness :
    driverStep wMarket [] c8Trade = .ok ⟨wMarket, [], 0,
      wMarket.GetAggBidLvls c8Trade.instrId 10, wMarket.GetAggAskLvls c8Trade.instrId 10⟩ :=
  C8_trade_none_frame wMarket [] c8Trade rfl rfl

theorem Book.eqOfSides {b1 b2 : Book} (h1 : b1.ordsById = b2.ordsById)
    (h2 : ∀ sd, b1.sideGet sd = b2.sideGet sd) : b1 = b2 :=
  Book.eqOf h1 (h2 Sd.Ask) (h2 Sd.Bid)

/-- C9: on any reachable book in which order id `x` is not live, Add of `x`
with positive size `s` at some side and price, followed by Cancel of `x` with
size `s`, succeeds and returns the book to exactly the starting state: the
entry, its index record, and any level the Add created are removed. -/
theorem C9_add_cancel_roundtrip (b : Book) (mAdd mCxl : MboSingle)
    (hR : b.Reachable)
    (hx : aFind b.ordsById mAdd.orderId = none)
    (_hs : 0 < mAdd.size) (hsd : mAdd.side ≠ Sd.None)
    (hCid : mCxl.orderId = mAdd.orderId) (hCsz : mCxl.size = mAdd.size) :
    ∃ b1, b.Add mAdd = .ok b1 ∧ b1.Cancel mCxl = .ok b := by
  have hwf := Book.reachable_wf hR
  have hqm := hwf.2.2.2.2.1
  have hnemp := hwf.2.2.2.2.2.2
  set q : LvlOrdsInQ := (smFind (b.sideGet mAdd.side) mAdd.price).getD [] with hqdef
  have hxq : mAdd.orderId ∉ qIds q := by
    rcases h0 : smFind (b.sideGet mAdd.side) mAdd.price with _ | q0
    · have hq0 : q = [] := by rw [hqdef, h0]; rfl
      rw [hq0]
      simp [qIds]
    · have hq0 : q = q0 := by rw [hqdef, h0]; rfl
      rw [hq0]
      exact Book.not_in_queues hqm hx mAdd.side mAdd.price q0 h0
  set b1 : Book := { b.setSide mAdd.side
      (smSet (b.sideGet mAdd.side) mAdd.price (q ++ [mAdd])) with
    ordsById := b.ordsById ++ [(mAdd.orderId, ⟨mAdd.price, mAdd.side⟩)] } with hb1
  have hAdd : b.Add mAdd = .ok b1 := by
    unfold Book.Add
    rw [if_neg hsd]
    simp only [hx]
  refine ⟨b1, hAdd, ?_⟩
  have hfind1 : aFind b1.ordsById mCxl.orderId = some ⟨mAdd.price, mAdd.side⟩ := by
    rw [hb1]
    show aFind (b.ordsById ++ [(mAdd.orderId, ⟨mAdd.price, mAdd.side⟩)]) mCxl.orderId = _
    rw [hCid]
    exact aFind_concat_self _ hx
  have hside1 : b1.sideGet mAdd.side
      = smSet (b.sideGet mAdd.side) mAdd.price (q ++ [mAdd]) := by
    rw [hb1, Book.sideGet_mk_ordsById, b.sideGet_setSide_self hsd]
  have hlvl1 : smFind (b1.sideGet mAdd.side) mAdd.price = some (q ++ [mAdd]) := by
    rw [hside1, smFind_smSet_self]
  have hord1 : findOrd (q ++ [mAdd]) mCxl.orderId = some mAdd := by
    rw [hCid]
    exact findOrd_concat_self (findOrd_eq_none_iff.mpr hxq) rfl
  have hq2 : eraseFirstOrd (q ++ [mAdd]) mCxl.orderId = q := by
    rw [hCid, eraseFirstOrd_concat hxq]
    simp
  have hz : (if mAdd.size < mCxl.size then 0 else mAdd.size - mCxl.size) = 0 := by
    rw [hCsz, if_neg (lt_irrefl _)]
    omega
  have hlvls2 : (if eraseFirstOrd (q ++ [mAdd]) mCxl.orderId = []
      then smErase (b1.sideGet mAdd.side) mAdd.price
      else smSet (b1.sideGet mAdd.side) mAdd.price
        (eraseFirstOrd (q ++ [mAdd]) mCxl.orderId)) = b.sideGet mAdd.side := by
    rw [hq2, hside1]
    by_cases hqe : q = []
    · rw [if_pos hqe]
      have hnone : smFind (b.sideGet mAdd.side) mAdd.price = none := by
        rcases h0 : smFind (b.sideGet mAdd.side) mAdd.price with _ | q0
        · rfl
        · have hq0 : q = q0 := by rw [hqdef, h0]; rfl
          have hq0nil : q0 = [] := by rw [← hq0]; exact hqe
          exact absurd hq0nil (hnemp mAdd.side mAdd.price q0 h0)
      exact smErase_smSet_of_none _ hnone
    · rw [if_neg hqe]
      have hsome : smFind (b.sideGet mAdd.side) mAdd.price = some q := by
        rcases h0 : smFind (b.sideGet mAdd.side) mAdd.price with _ | q0
        · have hq0 : q = [] := by rw [hqdef, h0]; rfl
          exact absurd hq0 hqe
        · have hq0 : q = q0 := by rw [hqdef, h0]; rfl
          rw [hq0]
      rw [smSet_smSet]
      exact smSet_eq_self (Book.wf_sorted_side hwf mAdd.side) hsome
  have hidx2 : aErase b1.ordsById mCxl.orderId = b.ordsById := by
    rw [hb1]
    show aErase (b.ordsById ++ [(mAdd.orderId, ⟨mAdd.price, mAdd.side⟩)]) mCxl.orderId
      = b.ordsById
    rw [hCid]
    exact aErase_concat_self hx
  unfold Book.Cancel
  simp only [hfind1, if_neg hsd, hlvl1, hord1, if_pos hz]
  congr 1
  refine Book.eqOfSides ?_ ?_
  · show aErase b1.ordsById mCxl.orderId = b.ordsById
    exact hidx2
  · intro sd
    by_cases hsds : sd = mAdd.side
    · subst hsds
      rw [Book.sideGet_mk_ordsById, Book.sideGet_setSide_self _ hsd, hlvls2]
    · rw [Book.sideGet_mk_ordsById, Book.sideGet_setSide_other _ hsds, hb1,
        Book.sideGet_mk_ordsById, Book.sideGet_setSide_other _ hsds]

/-- Cancel of order 1 with size 5. -/
def c9Cxl : MboSingle := ⟨"", "", 160, 1, 1, Act.Cancel, Sd.Bid, 100, 5, 0, 1, 0, 0, 0, ""⟩

/-- Witness for C9 on the empty (reachable) book. -/
theorem C9_witness :
    Book.Reachable Book.emptyBook ∧
    (∃ b1, Book.emptyBook.Add c1Add = .ok b1 ∧ b1.Cancel c9Cxl = .ok Book.emptyBook) :=
  ⟨Book.Reachable.empty,
   C9_add_cancel_roundtrip Book.emptyBook c1Add c9Cxl Book.Reachable.empty rfl
     (by decide) (by decide) rfl rfl⟩

/-- C10: a synthetic trade at an existing level whose size strictly exceeds
the total resting size at that level removes every order of the level from the
queue and from the id index and removes the level itself, silently discarding
the excess, and touches no other level, no other order, and no other index
entry. -/
theorem C10_synth_oversized (b : Book) (px : Int) (sz : Nat) (sd : Sd)
    (q : LvlOrdsInQ)
    (hsd : sd ≠ Sd.None)
    (hq : smFind (b.sideGet sd) px = some q)
    (hsz : (q.map (fun o => o.size)).sum < sz) :
    b.ProcSynthTrade px sz sd = .ok { b.setSide sd (smErase (b.sideGet sd) px) with
        ordsById := b.ordsById.filter (fun p => decide (p.1 ∉ qIds q)) } ∧
    smFind (Book.sideGet { b.setSide sd (smErase (b.sideGet sd) px) with
        ordsById := b.ordsById.filter (fun p => decide (p.1 ∉ qIds q)) } sd) px = none ∧
    (∀ sd2 px2, ¬ (sd2 = sd ∧ px2 = px) →
      smFind (Book.sideGet { b.setSide sd (smErase (b.sideGet sd) px) with
        ordsById := b.ordsById.filter (fun p => decide (p.1 ∉ qIds q)) } sd2) px2
        = smFind (b.sideGet sd2) px2) ∧
    (∀ k, aFind (b.ordsById.filter (fun p => decide (p.1 ∉ qIds q))) k
        = if k ∈ qIds q then none else aFind b.ordsById k) := by
  have hall : consumeOrds q sz = ([], qIds q) := consumeOrds_all hsz
  refine ⟨?_, ?_, ?_, ?_⟩
  · unfold Book.ProcSynthTrade
    rw [if_neg hsd]
    simp only [hq, hall, if_true]
    rw [← foldl_aErase_eq_filter]
  · rw [Book.sideGet_mk_ordsById, smFind_setSide _ hsd, if_pos rfl, smFind_smErase,
      if_pos rfl]
  · intro sd2 px2 hne
    rw [Book.sideGet_mk_ordsById, smFind_setSide _ hsd]
    by_cases hsd2 : sd2 = sd
    · rw [if_pos hsd2, smFind_smErase, if_neg (fun hc => hne ⟨hsd2, hc⟩), hsd2]
    · rw [if_neg hsd2]
  · intro k
    rw [← foldl_aErase_eq_filter, aFind_foldl_aErase]

/-- A synthetic trade of size 8 against the lone size-7 bid level of `wBook`. -/
theorem C10_witness :
    wBook.ProcSynthTrade 100 8 Sd.Bid = .ok { wBook.setSide Sd.Bid
        (smErase (wBook.sideGet Sd.Bid) 100) with
      ordsById := wBook.ordsById.filter (fun p => decide (p.1 ∉ qIds [wAdd])) } ∧
    smFind (Book.sideGet { wBook.setSide Sd.Bid (smErase (wBook.sideGet Sd.Bid) 100) with
      ordsById := wBook.ordsById.filter (fun p => decide (p.1 ∉ qIds [wAdd])) } Sd.Bid) 100
      = none ∧
    (∀ sd2 px2, ¬ (sd2 = Sd.Bid ∧ px2 = 100) →
      smFind (Book.sideGet { wBook.setSide Sd.Bid (smErase (wBook.sideGet Sd.Bid) 100) with
        ordsById := wBook.ordsById.filter (fun p => decide (p.1 ∉ qIds [wAdd])) } sd2) px2
        = smFind (wBook.sideGet sd2) px2) ∧
    (∀ k, aFind (wBook.ordsById.filter (fun p => decide (p.1 ∉ qIds [wAdd]))) k
        = if k ∈ qIds [wAdd] then none else aFind wBook.ordsById k) :=
  C10_synth_oversized wBook 100 8 Sd.Bid [wAdd] (by decide) (by decide) (by decide)

/-- The side opposite a Trade/Fill's side, as computed by the sequencer. -/
def oppSide : Sd → Sd
  | Sd.Ask => Sd.Bid
  | Sd.Bid => Sd.Ask
  | Sd.None => Sd.None

theorem Book.ProcSynthTrade_ok {b : Book} {px : Int} {sz : Nat} {sd : Sd}
    (hsd : sd ≠ Sd.None) : ∃ b', b.ProcSynthTrade px sz sd = .ok b' := by
  unfold Book.ProcSynthTrade
  rw [if_neg hsd]
  rcases h0 : smFind (b.sideGet sd) px with _ | q
  · exact ⟨b, rfl⟩
  · exact ⟨_, rfl⟩

theorem Market.ProcSynthTrade_total {mk : Market} {i p : Nat} {px : Int} {sz : Nat}
    {sd : Sd} (hsd : sd ≠ Sd.None) :
    ∃ mk', mk.ProcSynthTrade i p px sz sd = .ok mk' := by
  unfold Market.ProcSynthTrade
  rcases h1 : aFind mk.books i with _ | pbs
  · exact ⟨mk, rfl⟩
  · show ∃ mk', (match aFind pbs p with
      | none => Except.ok mk
      | some bk => (bk.ProcSynthTrade px sz sd).bind (fun bk2 =>
          Except.ok (Market.mk (aStore mk.books i (aStore pbs p bk2))))) = Except.ok mk'
    rcases h2 : aFind pbs p with _ | bk
    · exact ⟨mk, rfl⟩
    · obtain ⟨bk', hbk⟩ := @Book.ProcSynthTrade_ok bk px sz sd hsd
      refine ⟨Market.mk (aStore mk.books i (aStore pbs p bk')), ?_⟩
      show (bk.ProcSynthTrade px sz sd).bind (fun bk2 =>
          Except.ok (Market.mk (aStore mk.books i (aStore pbs p bk2))))
        = Except.ok (Market.mk (aStore mk.books i (aStore pbs p bk')))
      rw [hbk]
      rfl

/-- C2: for a Cancel whose order id has a pending Trade/Fill with side Bid or
Ask, the sequencer removes the pending entry, applies exactly one synthetic
trade with the pending event's price and size to the opposite side of the
pending side in the book keyed by the Cancel's instrument and publisher ids,
and the emitted depth is the level-depth query for the pending price on the
affected side evaluated on the post-trade market. -/
theorem C2_pending_cancel (mk : Market) (pend : PendingTFs) (m priorTF : MboSingle)
    (hact : m.action = Act.Cancel)
    (hp : aFind pend m.orderId = some priorTF)
    (hside : priorTF.side = Sd.Ask ∨ priorTF.side = Sd.Bid) :
    ∃ mk', mk.ProcSynthTrade m.instrId m.pubId priorTF.price priorTF.size
        (oppSide priorTF.side) = .ok mk' ∧
      driverStep mk pend m = .ok ⟨mk', aErase pend m.orderId,
        mk'.GetLevelDepth m.instrId m.pubId priorTF.price (oppSide priorTF.side),
        mk'.GetAggBidLvls m.instrId 10, mk'.GetAggAskLvls m.instrId 10⟩ := by
  have h1 : ¬ (m.action = Act.Trade ∧ m.side = Sd.None) := by simp [hact]
  have h2 : ¬ (m.action = Act.Trade ∨ m.action = Act.Fill) := by simp [hact]
  rcases hside with hside | hside
  · obtain ⟨mk', hok⟩ := @Market.ProcSynthTrade_total mk m.instrId m.pubId
      priorTF.price priorTF.size (oppSide priorTF.side) (by rw [hside]; simp [oppSide])
    refine ⟨mk', hok, ?_⟩
    unfold driverStep
    rw [if_neg h1, if_neg h2, if_pos hact]
    simp only [hp, hside]
    rw [hside] at hok
    simp only [oppSide] at hok
    simp only [hok]
    rfl
  · obtain ⟨mk', hok⟩ := @Market.ProcSynthTrade_total mk m.instrId m.pubId
      priorTF.price priorTF.size (oppSide priorTF.side) (by rw [hside]; simp [oppSide])
    refine ⟨mk', hok, ?_⟩
    unfold driverStep
    rw [if_neg h1, if_neg h2, if_pos hact]
    simp only [hp, hside]
    rw [hside] at hok
    simp only [oppSide] at hok
    simp only [hok]
    rfl

/-- A pending Trade on order 77, side Ask, price 100, size 7. -/
def c2Trade : MboSingle := ⟨"", "", 160, 1, 5, Act.Trade, Sd.Ask, 100, 7, 0, 77, 0, 0, 4, ""⟩

/-- The Cancel completing the Trade/Fill/Cancel triplet for order 77. -/
def c2Cxl : MboSingle := ⟨"", "", 160, 1, 5, Act.Cancel, Sd.Ask, 100, 7, 0, 77, 0, 0, 5, ""⟩

/-- Witness for C2 at a concrete pending Trade and Cancel. -/
theorem C2_witness :
    ∃ mk', wMarket.ProcSynthTrade c2Cxl.instrId c2Cxl.pubId c2Trade.price c2Trade.size
        (oppSide c2Trade.side) = .ok mk' ∧
      driverStep wMarket [(77, c2Trade)] c2Cxl = .ok ⟨mk',
        aErase [(77, c2Trade)] c2Cxl.orderId,
        mk'.GetLevelDepth c2Cxl.instrId c2Cxl.pubId c2Trade.price (oppSide c2Trade.side),
        mk'.GetAggBidLvls c2Cxl.instrId 10, mk'.GetAggAskLvls c2Cxl.instrId 10⟩ :=
  C2_pending_cancel wMarket [(77, c2Trade)] c2Cxl c2Trade rfl (by decide) (Or.inl rfl)

/-- Left fold of `uint32_t` additions, wrapping at each step. -/
def modSum (xs : List Nat) : Nat := xs.foldl (fun a b => (a + b) % U32) 0

/-- Sum (mod 2^32) of the `size` fields of the contributions at price `p`. -/
def sizeSumAt (ls : List PriceLvl) (p : Int) : Nat :=
  modSum ((ls.filter (fun l => l.price == p)).map (fun l => l.size))

/-- Sum (mod 2^32) of the `count` fields of the contributions at price `p`. -/
def countSumAt (ls : List PriceLvl) (p : Int) : Nat :=
  modSum ((ls.filter (fun l => l.price == p)).map (fun l => l.count))

/-- The unguarded `aggBids[lvl.price] += lvl` step. -/
def aggStep2 (acc : List (Int × PriceLvl)) (lvl : PriceLvl) : List (Int × PriceLvl) :=
  let cur := (smFind acc lvl.price).getD {}
  smSet acc lvl.price
    ⟨lvl.price, (cur.size + lvl.size) % U32, (cur.count + lvl.count) % U32⟩

/-- The price-keyed aggregate map built from a flat contribution list. -/
def aggMap (ls : List PriceLvl) : List (Int × PriceLvl) := ls.foldl aggStep2 []

/-- The nonempty top-`n` bid level views every publisher of the instrument
contributes ("up to n best levels from each publisher's Book"). -/
def bidContribs (mk : Market) (instrId n : Nat) : List PriceLvl :=
  match aFind mk.books instrId with
  | none => []
  | some pbs => pbs.flatMap (fun pb => (pb.2.GetBidLvls n).filter (fun l => !l.IsEmpty))

/-- The nonempty top-`n` ask level views every publisher contributes. -/
def askContribs (mk : Market) (instrId n : Nat) : List PriceLvl :=
  match aFind mk.books instrId with
  | none => []
  | some pbs => pbs.flatMap (fun pb => (pb.2.GetAskLvls n).filter (fun l => !l.IsEmpty))

theorem modSum_concat (xs : List Nat) (a : Nat) :
    modSum (xs ++ [a]) = (modSum xs + a) % U32 := by
  rw [modSum, modSum, List.foldl_append]
  rfl

theorem foldl_aggStep_flatten (pbs : List (Nat × Book)) (f : Nat × Book → List PriceLvl)
    (acc : List (Int × PriceLvl)) :
    pbs.foldl (fun a pb => (f pb).foldl aggStep a) acc
      = (pbs.flatMap f).foldl aggStep acc := by
  induction pbs generalizing acc with
  | nil => rfl
  | cons pb rest ih =>
    rw [List.foldl_cons, List.flatMap_cons, List.foldl_append]
    exact ih _

theorem foldl_aggStep_filter (ls : List PriceLvl) (acc : List (Int × PriceLvl)) :
    ls.foldl aggStep acc = (ls.filter (fun l => !l.IsEmpty)).foldl aggStep2 acc := by
  induction ls generalizing acc with
  | nil => rfl
  | cons l rest ih =>
    rw [List.foldl_cons, List.filter_cons]
    by_cases he : l.IsEmpty
    · have h1 : aggStep acc l = acc := by
        unfold aggStep
        rw [if_pos he]
      rw [h1, he]
      simp only [Bool.not_true, Bool.false_eq_true, if_false]
      exact ih acc
    · have hb : l.IsEmpty = false := Bool.of_not_eq_true he
      have h1 : aggStep acc l = aggStep2 acc l := by
        unfold aggStep aggStep2
        rw [hb]
        rfl
      rw [h1, hb]
      simp only [Bool.not_false, if_true]
      rw [List.foldl_cons]
      exact ih _

theorem sizeSumAt_not_mem {ls : List PriceLvl} {p : Int}
    (h : p ∉ ls.map (fun l => l.price)) : sizeSumAt ls p = 0 := by
  unfold sizeSumAt
  have hf : ls.filter (fun l => l.price == p) = [] := by
    rw [List.filter_eq_nil_iff]
    intro l hl
    simp only [beq_iff_eq]
    intro hpe
    exact h (hpe ▸ List.mem_map_of_mem (fun l => l.price) hl)
  rw [hf]
  rfl

theorem countSumAt_not_mem {ls : List PriceLvl} {p : Int}
    (h : p ∉ ls.map (fun l => l.price)) : countSumAt ls p = 0 := by
  unfold countSumAt
  have hf : ls.filter (fun l => l.price == p) = [] := by
    rw [List.filter_eq_nil_iff]
    intro l hl
    simp only [beq_iff_eq]
    intro hpe
    exact h (hpe ▸ List.mem_map_of_mem (fun l => l.price) hl)
  rw [hf]
  rfl

theorem sizeSumAt_concat (ls : List PriceLvl) (l : PriceLvl) (p : Int) :
    sizeSumAt (ls ++ [l]) p =
      if l.price = p then (sizeSumAt ls p + l.size) % U32 else sizeSumAt ls p := by
  unfold sizeSumAt
  rw [List.filter_append]
  by_cases h : l.price = p
  · rw [if_pos h]
    have hf : List.filter (fun l => l.price == p) [l] = [l] := by simp [h]
    rw [hf, List.map_append]
    simp only [List.map_cons, List.map_nil]
    rw [modSum_concat]
  · rw [if_neg h]
    have hf : List.filter (fun l => l.price == p) [l] = [] := by simp [h]
    rw [hf, List.append_nil]

theorem countSumAt_concat (ls : List PriceLvl) (l : PriceLvl) (p : Int) :
    countSumAt (ls ++ [l]) p =
      if l.price = p then (countSumAt ls p + l.count) % U32 else countSumAt ls p := by
  unfold countSumAt
  rw [List.filter_append]
  by_cases h : l.price = p
  · rw [if_pos h]
    have hf : List.filter (fun l => l.price == p) [l] = [l] := by simp [h]
    rw [hf, List.map_append]
    simp only [List.map_cons, List.map_nil]
    rw [modSum_concat]
  · rw [if_neg h]
    have hf : List.filter (fun l => l.price == p) [l] = [] := by simp [h]
    rw [hf, List.append_nil]

theorem aggMap_spec (ls : List PriceLvl) :
    List.Sorted (· < ·) ((aggMap ls).map Prod.fst) ∧
    ∀ p, smFind (aggMap ls) p =
      (if p ∈ ls.map (fun l => l.price)
       then some ⟨p, sizeSumAt ls p, countSumAt ls p⟩ else none) := by
  induction ls using List.reverseRecOn with
  | nil =>
    refine ⟨by simp [aggMap], ?_⟩
    intro p
    simp [aggMap, smFind]
  | append_singleton ls l ih =>
    have hA : aggMap (ls ++ [l]) = aggStep2 (aggMap ls) l := by
      rw [aggMap, List.foldl_append]
      rfl
    obtain ⟨ihS, ihF⟩ := ih
    constructor
    · rw [hA]
      unfold aggStep2
      exact smSet_sorted _ _ ihS
    · intro p
      rw [hA]
      unfold aggStep2
      by_cases hp : p = l.price
      · subst hp
        rw [smFind_smSet_self]
        have hmem : l.price ∈ (ls ++ [l]).map (fun l => l.price) := by
          rw [List.map_append]
          exact List.mem_append_right _ (by simp)
        rw [if_pos hmem, ihF l.price, sizeSumAt_concat, countSumAt_concat,
          if_pos rfl, if_pos rfl]
        by_cases hin : l.price ∈ ls.map (fun l => l.price)
        · rw [if_pos hin]
          rfl
        · rw [if_neg hin, sizeSumAt_not_mem hin, countSumAt_not_mem hin]
          rfl
      · rw [smFind_smSet_ne _ _ _ hp, ihF p, sizeSumAt_concat, countSumAt_concat,
          if_neg (show ¬ l.price = p from fun hc => hp hc.symm),
          if_neg (show ¬ l.price = p from fun hc => hp hc.symm)]
        have hmm : (p ∈ (ls ++ [l]).map (fun l => l.price))
            ↔ (p ∈ ls.map (fun l => l.price)) := by
          rw [List.map_append]
          constructor
          · intro hc
            rcases List.mem_append.mp hc with hc | hc
            · exact hc
            · simp only [List.map_cons, List.map_nil, List.mem_singleton] at hc
              exact absurd hc hp
          · intro hc
            exact List.mem_append_left _ hc
        by_cases hin : p ∈ ls.map (fun l => l.price)
        · rw [if_pos hin, if_pos (hmm.mpr hin)]
        · rw [if_neg hin, if_neg (fun hc => hin (hmm.mp hc))]

/-- Insert a key into a strictly ascending list, without duplicating it. -/
def insAsc (p : Int) : List Int → List Int
  | [] => [p]
  | k :: rest =>
    if p < k then p :: k :: rest
    else if p = k then k :: rest
    else k :: insAsc p rest

/-- The distinct keys of a list, in ascending order. -/
def sortedDedupAsc (ps : List Int) : List Int := ps.foldl (fun acc p => insAsc p acc) []

theorem mem_insAsc {x p : Int} {l : List Int} : x ∈ insAsc p l ↔ x = p ∨ x ∈ l := by
  induction l with
  | nil => simp [insAsc]
  | cons k rest ih =>
    by_cases h1 : p < k
    · simp [insAsc, h1]
    · by_cases h2 : p = k
      · subst h2
        simp [insAsc, h1]
      · simp [insAsc, h1, h2, ih]
        tauto

theorem insAsc_sorted {l : List Int} (p : Int) (h : List.Sorted (· < ·) l) :
    List.Sorted (· < ·) (insAsc p l) := by
  induction l with
  | nil => simp [insAsc]
  | cons k rest ih =>
    rw [List.sorted_cons] at h
    obtain ⟨hall, hrest⟩ := h
    by_cases h1 : p < k
    · rw [show insAsc p (k :: rest) = p :: k :: rest from by simp [insAsc, h1]]
      rw [List.sorted_cons]
      refine ⟨?_, List.sorted_cons.mpr ⟨hall, hrest⟩⟩
      intro b hb
      rcases List.mem_cons.mp hb with rfl | hb
      · exact h1
      · exact lt_trans h1 (hall b hb)
    · by_cases h2 : p = k
      · subst h2
        rw [show insAsc p (p :: rest) = p :: rest from by simp [insAsc, h1]]
        exact List.sorted_cons.mpr ⟨hall, hrest⟩
      · have h3 : k < p := by omega
        rw [show insAsc p (k :: rest) = k :: insAsc p rest from by simp [insAsc, h1, h2]]
        rw [List.sorted_cons]
        refine ⟨?_, ih hrest⟩
        intro b hb
        rcases mem_insAsc.mp hb with rfl | hb
        · exact h3
        · exact hall b hb

theorem sortedDedupAsc_spec (ps : List Int) :
    List.Sorted (· < ·) (sortedDedupAsc ps) ∧
    (∀ x, x ∈ sortedDedupAsc ps ↔ x ∈ ps) := by
  have main : ∀ (ps : List Int) (acc : List Int), List.Sorted (· < ·) acc →
      List.Sorted (· < ·) (ps.foldl (fun acc p => insAsc p acc) acc) ∧
      (∀ x, x ∈ ps.foldl (fun acc p => insAsc p acc) acc ↔ x ∈ ps ∨ x ∈ acc) := by
    intro ps
    induction ps with
    | nil =>
      intro acc hacc
      exact ⟨hacc, by simp⟩
    | cons p rest ih =>
      intro acc hacc
      rw [List.foldl_cons]
      obtain ⟨hS, hM⟩ := ih (insAsc p acc) (insAsc_sorted p hacc)
      refine ⟨hS, ?_⟩
      intro x
      rw [hM x, mem_insAsc]
      constructor
      · rintro (hx | hx | hx)
        · exact Or.inl (List.mem_cons_of_mem _ hx)
        · exact Or.inl (hx ▸ List.mem_cons_self _ _)
        · exact Or.inr hx
      · rintro (hx | hx)
        · rcases List.mem_cons.mp hx with rfl | hx
          · exact Or.inr (Or.inl rfl)
          · exact Or.inl hx
        · exact Or.inr (Or.inr hx)
  obtain ⟨hS, hM⟩ := main ps [] (by simp)
  refine ⟨hS, ?_⟩
  intro x
  rw [sortedDedupAsc, hM x]
  simp

theorem sorted_lt_eq_of_mem_iff : ∀ {l1 l2 : List Int},
    List.Sorted (· < ·) l1 → List.Sorted (· < ·) l2 →
    (∀ x, x ∈ l1 ↔ x ∈ l2) → l1 = l2 := by
  intro l1
  induction l1 with
  | nil =>
    intro l2 _ _ hm
    cases l2 with
    | nil => rfl
    | cons b t2 => exact absurd ((hm b).mpr (List.mem_cons_self b t2)) (List.not_mem_nil b)
  | cons a t1 ih =>
    intro l2 h1 h2 hm
    cases l2 with
    | nil => exact absurd ((hm a).mp (List.mem_cons_self a t1)) (List.not_mem_nil a)
    | cons b t2 =>
      rw [List.sorted_cons] at h1 h2
      have hab : a = b := by
        have ha2 := (hm a).mp (List.mem_cons_self a t1)
        have hb1 := (hm b).mpr (List.mem_cons_self b t2)
        rcases List.mem_cons.mp ha2 with hh | hh
        · exact hh
        · rcases List.mem_cons.mp hb1 with hh2 | hh2
          · exact hh2.symm
          · have := h1.1 b hh2
            have := h2.1 a hh
            omega
      subst hab
      have hmt : ∀ x, x ∈ t1 ↔ x ∈ t2 := by
        intro x
        constructor
        · intro hx
          have hlt := h1.1 x hx
          rcases List.mem_cons.mp ((hm x).mp (List.mem_cons_of_mem _ hx)) with rfl | hh
          · exact absurd hlt (lt_irrefl x)
          · exact hh
        · intro hx
          have hlt := h2.1 x hx
          rcases List.mem_cons.mp ((hm x).mpr (List.mem_cons_of_mem _ hx)) with rfl | hh
          · exact absurd hlt (lt_irrefl x)
          · exact hh
      rw [ih h1.2 h2.2 hmt]

theorem smFind_isSome_iff_mem {α : Type} {l : List (Int × α)} {k : Int} :
    (smFind l k).isSome ↔ k ∈ l.map Prod.fst := by
  induction l with
  | nil => simp [smFind]
  | cons p rest ih =>
    rw [smFind_cons]
    by_cases h : p.1 = k
    · simp [h, ih]
    · simp only [if_neg h, ih, List.map_cons, List.mem_cons]
      constructor
      · intro hh
        exact Or.inr hh
      · rintro (hh | hh)
        · exact absurd hh.symm h
        · exact hh

theorem smFind_of_mem_sorted {α : Type} {l : List (Int × α)} {k : Int} {v : α}
    (hs : List.Sorted (· < ·) (l.map Prod.fst)) (hmem : (k, v) ∈ l) :
    smFind l k = some v := by
  induction l with
  | nil => simp at hmem
  | cons p rest ih =>
    rw [List.map_cons, List.sorted_cons] at hs
    rcases List.mem_cons.mp hmem with hh | hmem'
    · rw [← hh, smFind_cons, if_pos rfl]
    · have hk_in : k ∈ rest.map Prod.fst := by
        have : (k, v).1 ∈ rest.map Prod.fst := List.mem_map_of_mem Prod.fst hmem'
        simpa using this
      have hlt : p.1 < k := hs.1 k hk_in
      rw [smFind_cons, if_neg (ne_of_lt hlt)]
      exact ih hs.2 hmem'

theorem map_snd_eq_of_values {α : Type} {l : List (Int × α)} {g : Int → α}
    (h : ∀ pr ∈ l, pr.2 = g pr.1) : l.map Prod.snd = (l.map Prod.fst).map g := by
  induction l with
  | nil => rfl
  | cons p rest ih =>
    simp only [List.map_cons]
    rw [h p (List.mem_cons_self _ _), ih (fun pr hpr => h pr (List.mem_cons_of_mem _ hpr))]

theorem aggMap_keys (ls : List PriceLvl) :
    (aggMap ls).map Prod.fst = sortedDedupAsc (ls.map (fun l => l.price)) := by
  obtain ⟨hS, hF⟩ := aggMap_spec ls
  obtain ⟨hS2, hM2⟩ := sortedDedupAsc_spec (ls.map (fun l => l.price))
  apply sorted_lt_eq_of_mem_iff hS hS2
  intro x
  rw [hM2 x, ← smFind_isSome_iff_mem, hF x]
  by_cases h : x ∈ ls.map (fun l => l.price) <;> simp [h]

theorem aggMap_values (ls : List PriceLvl) :
    (aggMap ls).map Prod.snd = ((aggMap ls).map Prod.fst).map
      (fun p => (⟨p, sizeSumAt ls p, countSumAt ls p⟩ : PriceLvl)) := by
  obtain ⟨hS, hF⟩ := aggMap_spec ls
  apply map_snd_eq_of_values
  intro pr hpr
  have hfind : smFind (aggMap ls) pr.1 = some pr.2 := smFind_of_mem_sorted hS hpr
  rw [hF pr.1] at hfind
  by_cases h : pr.1 ∈ ls.map (fun l => l.price)
  · rw [if_pos h] at hfind
    injection hfind with hfind
    exact hfind.symm
  · rw [if_neg h] at hfind
    exact Option.noConfusion hfind

theorem aggOut_take (A : List (Int × PriceLvl)) (g : Int → PriceLvl) (n : Nat)
    (hv : A.map Prod.snd = (A.map Prod.fst).map g) :
    ((A.take n).map Prod.snd = ((A.map Prod.fst).take n).map g) ∧
    ((A.reverse.take n).map Prod.snd = ((A.map Prod.fst).reverse.take n).map g) := by
  constructor
  · rw [List.map_take, hv, ← List.map_take]
  · rw [List.map_take, List.map_reverse, hv, ← List.map_reverse, ← List.map_take]

theorem GetAggBidLvls_eq (mk : Market) (instrId n : Nat) :
    mk.GetAggBidLvls instrId n =
      ((sortedDedupAsc ((bidContribs mk instrId n).map (fun l => l.price))).reverse.take n).map
        (fun p => ⟨p, sizeSumAt (bidContribs mk instrId n) p,
                   countSumAt (bidContribs mk instrId n) p⟩) := by
  have hmatch : (match aFind mk.books instrId with
      | none => ([] : List (Int × PriceLvl))
      | some pbs => pbs.foldl (fun acc (pb : Nat × Book) =>
          (pb.2.GetBidLvls n).foldl aggStep acc) [])
      = aggMap (bidContribs mk instrId n) := by
    cases h : aFind mk.books instrId with
    | none => simp [bidContribs, h, aggMap]
    | some pbs =>
      simp only [bidContribs, h]
      rw [foldl_aggStep_flatten, foldl_aggStep_filter, List.filter_flatMap]
      rfl
  show ((match aFind mk.books instrId with
      | none => ([] : List (Int × PriceLvl))
      | some pbs => pbs.foldl (fun acc (pb : Nat × Book) =>
          (pb.2.GetBidLvls n).foldl aggStep acc) []).reverse.take n).map Prod.snd = _
  rw [hmatch, (aggOut_take _ _ n (aggMap_values (bidContribs mk instrId n))).2,
    aggMap_keys]

theorem GetAggAskLvls_eq (mk : Market) (instrId n : Nat) :
    mk.GetAggAskLvls instrId n =
      ((sortedDedupAsc ((askContribs mk instrId n).map (fun l => l.price))).take n).map
        (fun p => ⟨p, sizeSumAt (askContribs mk instrId n) p,
                   countSumAt (askContribs mk instrId n) p⟩) := by
  have hmatch : (match aFind mk.books instrId with
      | none => ([] : List (Int × PriceLvl))
      | some pbs => pbs.foldl (fun acc (pb : Nat × Book) =>
          (pb.2.GetAskLvls n).foldl aggStep acc) [])
      = aggMap (askContribs mk instrId n) := by
    cases h : aFind mk.books instrId with
    | none => simp [askContribs, h, aggMap]
    | some pbs =>
      simp only [askContribs, h]
      rw [foldl_aggStep_flatten, foldl_aggStep_filter, List.filter_flatMap]
      rfl
  show ((match aFind mk.books instrId with
      | none => ([] : List (Int × PriceLvl))
      | some pbs => pbs.foldl (fun acc (pb : Nat × Book) =>
          (pb.2.GetAskLvls n).foldl aggStep acc) []).take n).map Prod.snd = _
  rw [hmatch, (aggOut_take _ _ n (aggMap_values (askContribs mk instrId n))).1,
    aggMap_keys]

/-- C4: for every instrument and every `n`, the aggregated bid levels are the
distinct prices drawn from the publishers' own top-`n` nonempty bid level
views, reduced to at most `n` prices in best-first (descending) order, each
carrying the `uint32` sum of the per-publisher sizes and order counts at that
price; the aggregated ask levels are symmetric with ascending best-first
order.  Publishers with no book or no levels at a price contribute nothing. -/
theorem C4_aggregation : ∀ (mk : Market) (instrId n : Nat),
    mk.GetAggBidLvls instrId n =
      ((sortedDedupAsc ((bidContribs mk instrId n).map (fun l => l.price))).reverse.take n).map
        (fun p => ⟨p, sizeSumAt (bidContribs mk instrId n) p,
                   countSumAt (bidContribs mk instrId n) p⟩) ∧
    mk.GetAggAskLvls instrId n =
      ((sortedDedupAsc ((askContribs mk instrId n).map (fun l => l.price))).take n).map
        (fun p => ⟨p, sizeSumAt (askContribs mk instrId n) p,
                   countSumAt (askContribs mk instrId n) p⟩) ∧
    (mk.GetAggBidLvls instrId n).length ≤ n ∧
    (mk.GetAggAskLvls instrId n).length ≤ n := by
  intro mk instrId n
  refine ⟨GetAggBidLvls_eq mk instrId n, GetAggAskLvls_eq mk instrId n, ?_, ?_⟩
  · rw [GetAggBidLvls_eq mk instrId n, List.length_map]
    exact List.length_take_le _ _
  · rw [GetAggAskLvls_eq mk instrId n, List.length_map]
    exact List.length_take_le _ _
